import Mathlib

/-!
Verification of the simhash near-duplicate search library.

The C++ sources (`src/simhash.cpp`, `include/simhash.h`) are shallowly
embedded below: 64-bit words become `Nat` with explicit `% 2 ^ 64` where
the C++ relies on `uint64_t` wrap-around, fallible functions return
`Except String`, and the stateful loops become folds / recursions over
lists.  The theorems at the end of the file settle the specification
claims against this embedding.
-/

namespace Simhash


/-- `Simhash::BITS`: the number of bits in `hash_t` (`uint64_t`). -/
def BITS : Nat := 64

/-- The Kernighan bit-clearing loop from `Simhash::num_differing_bits`:
`while (n) { ++count; n = n & (n - 1); }`. -/
def kernighanCount (n : Nat) : Nat :=
  if h : n = 0 then 0 else 1 + kernighanCount (n &&& (n - 1))
termination_by n
decreasing_by
  have h1 : n &&& (n - 1) ≤ n - 1 := Nat.and_le_right
  omega

/-- `Simhash::num_differing_bits`: Hamming distance of two 64-bit words,
computed as the Kernighan population count of `a ^ b`. -/
def num_differing_bits (a b : Nat) : Nat := kernighanCount (a ^^^ b)

/-- Reference population count, by binary recursion.  Used to state the
claims ("popcount") and proved equal to the Kernighan loop below. -/
def popcount (n : Nat) : Nat :=
  if h : n = 0 then 0 else n % 2 + popcount (n / 2)
termination_by n
decreasing_by
  omega

/-!
## The fingerprint folder `Simhash::compute`

The C++ loop updates all 64 signed counters once per feature hash; the
embedding swaps the two loops and computes each position's counter as a
fold over the features.  `(hash >> i) & 1` is the bit the C++ inner loop
tests at position `i` after `i` right-shifts of `hash`.
-/

/-- The signed counter `counts[i]` of `Simhash::compute`:
`+1` for every feature with bit `i` set, `-1` for every feature with
bit `i` clear (`long` counters; modelled as unbounded `Int`). -/
def bitCounter (hashes : List Nat) (i : Nat) : Int :=
  hashes.foldl (fun acc hash => acc + if (hash >>> i) &&& 1 = 1 then 1 else -1) 0

/-- `Simhash::compute`: fold feature hashes into one fingerprint, setting
bit `i` exactly when `counts[i] > 0`. -/
def compute (hashes : List Nat) : Nat :=
  (List.range BITS).foldl
    (fun result i => if 0 < bitCounter hashes i then result ||| (1 <<< i) else result) 0

/-!
## The `Permutation` class

`Permutation(different_bits, masks)` scans each forward mask for its
rightmost set bit `i` and one-past-its-leftmost set bit `j`, accumulates
the widths `j - i`, and derives the signed net offset and the reverse
mask of every block, then assembles the search mask from the widths of
all but the last `different_bits` blocks.
-/

/-- The scan `for (i = 0; !((1UL << i) & mask); ++i)`.  The C++ loop has no
bound (shifting past bit 63 is undefined); masks are nonzero 64-bit words,
so 64 iterations always suffice and the embedding uses that as fuel. -/
def findFirstSetFrom (mask : Nat) : Nat → Nat → Nat
  | 0, i => i
  | fuel + 1, i => if mask.testBit i then i else findFirstSetFrom mask fuel (i + 1)

def findFirstSet (mask : Nat) : Nat := findFirstSetFrom mask 64 0

/-- The scan `for (j = i; j < 64 && ((1UL << j) & mask); ++j)`. -/
def findRunEndFrom (mask : Nat) : Nat → Nat → Nat
  | 0, j => j
  | fuel + 1, j =>
      if j < 64 ∧ mask.testBit j then findRunEndFrom mask fuel (j + 1) else j

def findRunEnd (mask : Nat) (i : Nat) : Nat := findRunEndFrom mask 64 i

/-- The per-mask loop of the `Permutation` constructor: produces the widths
`j - i`, the signed offsets `64 - width - i` (with `width` already
increased by the current block), and the pre-shifted reverse masks. -/
def permScan (width : Nat) : List Nat → List Nat × List Int × List Nat
  | [] => ([], [], [])
  | mask :: rest =>
      let i := findFirstSet mask
      let j := findRunEnd mask i
      let width' := width + (j - i)
      let offset : Int := 64 - (width' : Int) - (i : Int)
      let rmask :=
        if 0 < offset then (mask <<< offset.toNat) % 2 ^ 64
        else mask >>> (-offset).toNat
      let t := permScan width' rest
      ((j - i) :: t.1, offset :: t.2.1, rmask :: t.2.2)

/-- `search_mask_ = (search_mask_ << 1) | 1`, `width` times (on `uint64_t`,
hence the wrap-around). -/
def onesLoop : Nat → Nat → Nat
  | s, 0 => s
  | s, k + 1 => onesLoop ((s <<< 1 ||| 1) % 2 ^ 64) k

/-- `search_mask_ = search_mask_ << 1`, once per remaining position. -/
def shiftLoop : Nat → Nat → Nat
  | s, 0 => s
  | s, k + 1 => shiftLoop ((s <<< 1) % 2 ^ 64) k

structure Permutation where
  forward_masks : List Nat
  reverse_masks : List Nat
  offsets : List Int
  search_mask_ : Nat
deriving DecidableEq

/-- The constructor `Permutation(size_t different_bits, vector<hash_t>& masks)`.
The width loop sums the widths of all but the last `different_bits` blocks
(zero iterations when `different_bits ≥ widths.size()`). -/
def Permutation.build (different_bits : Nat) (masks : List Nat) : Permutation :=
  let t := permScan 0 masks
  let w := (t.1.take (t.1.length - different_bits)).sum
  { forward_masks := masks
    reverse_masks := t.2.2
    offsets := t.2.1
    search_mask_ := shiftLoop (onesLoop 0 w) (64 - w) }

def Permutation.search_mask (p : Permutation) : Nat := p.search_mask_

/-- `Permutation::apply`: `result |= (hash & mask) << offset` (or `>> -offset`),
over the forward masks; left shifts wrap on `uint64_t`. -/
def Permutation.apply (p : Permutation) (hash : Nat) : Nat :=
  (p.forward_masks.zip p.offsets).foldl
    (fun result mo =>
      if (0 : Int) < mo.2 then result ||| ((hash &&& mo.1) <<< mo.2.toNat) % 2 ^ 64
      else result ||| (hash &&& mo.1) >>> (-mo.2).toNat) 0

/-- `Permutation::reverse`: the mirror loop over the reverse masks. -/
def Permutation.reverse (p : Permutation) (hash : Nat) : Nat :=
  (p.reverse_masks.zip p.offsets).foldl
    (fun result mo =>
      if (0 : Int) < mo.2 then result ||| (hash &&& mo.1) >>> mo.2.toNat
      else result ||| ((hash &&& mo.1) <<< (-mo.2).toNat) % 2 ^ 64) 0

/-- The enumeration order of `Permutation::choose` (the textbook
next-combination loop cribbed from python's itertools): all combinations
that contain the first element of the population come first, prefixed by
it, followed by the combinations of the rest; this is the lexicographic
order over positions that the index-stepping loop walks. -/
def combinations {α : Type} : Nat → List α → List (List α)
  | 0, _ => [[]]
  | _ + 1, [] => []
  | r + 1, x :: xs =>
      ((combinations r xs).map (fun c => x :: c)) ++ combinations (r + 1) xs

/-- `Permutation::choose(population, r)`, including its `r > n` failure. -/
def Permutation.choose (population : List Nat) (r : Nat) :
    Except String (List (List Nat)) :=
  if population.length < r then
    .error "R cannot be greater than population size."
  else
    .ok (combinations r population)

/-- Block `i` of the partition of the 64 bit positions into
`number_of_blocks` blocks: `mask |= 1 << j` for
`j ∈ [i*64/B, (i+1)*64/B)`. -/
def blockMask (number_of_blocks i : Nat) : Nat :=
  (List.range' (i * BITS / number_of_blocks)
      ((i + 1) * BITS / number_of_blocks - i * BITS / number_of_blocks)).foldl
    (fun mask j => mask ||| (1 <<< j)) 0

def blocksList (number_of_blocks : Nat) : List Nat :=
  (List.range number_of_blocks).map (blockMask number_of_blocks)

/-- `Permutation::create`: the two precondition checks, the block build,
and one permutation per combination of `B - d` blocks, the chosen blocks
first and the remaining blocks (those not found in the choice) appended
in their original order. -/
def Permutation.create (number_of_blocks different_bits : Nat) :
    Except String (List Permutation) :=
  if 64 < number_of_blocks then
    .error "Number of blocks must not exceed 64"
  else if number_of_blocks ≤ different_bits then
    .error "Number of blocks must be greater than different_bits"
  else do
    let blocks := blocksList number_of_blocks
    let choices ← Permutation.choose blocks (number_of_blocks - different_bits)
    .ok (choices.map (fun choice =>
      Permutation.build different_bits
        (choice ++ blocks.filter (fun block => decide (block ∉ choice)))))

/-!
## Characterization of contiguous block masks and the constructor scan

A block mask is a contiguous run of `w` set bits starting at position
`lo`; `onesRun lo w` is its closed form.  The lemmas below compute the
constructor's scans and `permScan` on lists of such masks.
-/

def onesRun (lo w : Nat) : Nat := (2 ^ w - 1) <<< lo

/-- Validity of a list of `(lo, w)` block descriptors relative to the
running width accumulator of the constructor scan. -/
def ChainOK (width : Nat) : List (Nat × Nat) → Prop
  | [] => True
  | s :: rest => 0 < s.2 ∧ s.1 + s.2 ≤ 64 ∧ width + s.2 ≤ 64 ∧ ChainOK (width + s.2) rest

def specMasks (specs : List (Nat × Nat)) : List Nat :=
  specs.map (fun s => onesRun s.1 s.2)

/-- The offsets `64 - width' - i` the constructor computes, in closed form. -/
def offsetsOf (width : Nat) : List (Nat × Nat) → List Int
  | [] => []
  | s :: rest =>
      ((64 : Int) - ((width + s.2 : Nat) : Int) - (s.1 : Int)) :: offsetsOf (width + s.2) rest

/-- The pre-shifted reverse masks, in closed form: block `(lo, w)` lands at
destination `64 - width'` during `apply`, so its reverse mask is the run of
`w` bits based there. -/
def rmasksOf (width : Nat) : List (Nat × Nat) → List Nat
  | [] => []
  | s :: rest => onesRun (64 - (width + s.2)) s.2 :: rmasksOf (width + s.2) rest

/-!
## Bit-level behaviour of `apply` and `reverse`

`withDst` annotates each block descriptor with its destination position in
the permuted word: the first block in the constructor's list lands at the
top of the word, each later block immediately below its predecessor.
-/

def withDst (width : Nat) : List (Nat × Nat) → List ((Nat × Nat) × Nat)
  | [] => []
  | s :: rest => (s, 64 - (width + s.2)) :: withDst (width + s.2) rest

/-- The bits of `hash` in `[lo, lo + w)` relocated to be based at `dst`. -/
def moveBits (hash lo w dst : Nat) : Nat := ((hash >>> lo) &&& (2 ^ w - 1)) <<< dst

/-- The contribution of one `(mask, offset)` pair inside `Permutation::apply`. -/
def applyPiece (hash : Nat) (mo : Nat × Int) : Nat :=
  if (0 : Int) < mo.2 then ((hash &&& mo.1) <<< mo.2.toNat) % 2 ^ 64
  else (hash &&& mo.1) >>> (-mo.2).toNat

/-- The contribution of one `(reverse mask, offset)` pair inside
`Permutation::reverse`. -/
def reversePiece (hash : Nat) (mo : Nat × Int) : Nat :=
  if (0 : Int) < mo.2 then (hash &&& mo.1) >>> mo.2.toNat
  else ((hash &&& mo.1) <<< (-mo.2).toNat) % 2 ^ 64

/-!
## Partitions of the 64 bit positions into blocks

`SpecsPartition` captures what holds of the block list handed to the
constructor by `Permutation::create` (in any order): nonempty in-range
blocks, total width 64, pairwise disjoint, and jointly covering every
position.
-/

def specDisj (s t : Nat × Nat) : Prop := s.1 + s.2 ≤ t.1 ∨ t.1 + t.2 ≤ s.1

def SpecsPartition (specs : List (Nat × Nat)) : Prop :=
  (∀ s ∈ specs, 0 < s.2 ∧ s.1 + s.2 ≤ 64) ∧
  (specs.map Prod.snd).sum = 64 ∧
  List.Pairwise specDisj specs ∧
  (∀ j, j < 64 → ∃ s ∈ specs, s.1 ≤ j ∧ j < s.1 + s.2)

/-- The source position feeding destination bit `i` of the permuted word,
recovered from the annotated block list. -/
def srcOfDst (wd : List ((Nat × Nat) × Nat)) (i : Nat) : Nat :=
  match wd.find? (fun sd => decide (sd.2 ≤ i ∧ i < sd.2 + sd.1.2)) with
  | some sd => sd.1.1 + (i - sd.2)
  | none => 64

def natSpecs (B : Nat) : List (Nat × Nat) :=
  (List.range B).map (fun i => (i * 64 / B, (i + 1) * 64 / B - i * 64 / B))

/-- The prefix-run sweep: `start` anchors a run, `end` walks forward while
`(*end & mask) == prefix`, and the walk resumes at `end`. -/
def runsBy (mask : Nat) (l : List Nat) : List (List Nat) :=
  match l with
  | [] => []
  | x :: xs =>
      (x :: xs.takeWhile (fun y => decide (y &&& mask = x &&& mask))) ::
        runsBy mask (xs.dropWhile (fun y => decide (y &&& mask = x &&& mask)))
termination_by l.length
decreasing_by
  exact Nat.lt_succ_of_le (List.Sublist.length_le (List.dropWhile_sublist _))

/-- The intra-run double loop `for a in run, for b after a`. -/
def pairsOf : List Nat → List (Nat × Nat)
  | [] => []
  | x :: xs => (xs.map (fun y => (x, y))) ++ pairsOf xs

/-- `Simhash::find_all`.  The input `unordered_set` is modelled as a list
of its elements; the `matches_t` result is the accumulated `Finset` of
canonical pairs. -/
def find_all (hashes : List Nat) (number_of_blocks different_bits : Nat) :
    Except String (Finset (Nat × Nat)) := do
  let permutations ← Permutation.create number_of_blocks different_bits
  .ok (permutations.foldl (fun results p =>
    let copy := (hashes.map p.apply).mergeSort (fun a b => decide (a ≤ b))
    (runsBy p.search_mask copy).foldl (fun res run =>
      (pairsOf run).foldl (fun res2 ab =>
        if num_differing_bits ab.1 ab.2 ≤ different_bits then
          insert (min (p.reverse ab.1) (p.reverse ab.2),
            max (p.reverse ab.1) (p.reverse ab.2)) res2
        else res2) res) results) ∅)

/-!
## The clustering `Simhash::find_clusters`

The adjacency map `nodes` and visited flags become a neighbour function
over the match set and an `unvisited` set (the complement of `visited`
restricted to the match endpoints).  `unordered_map` iteration order is
unspecified in C++; the embedding iterates the endpoints in the order
`Finset.toList` provides.
-/

/-- The vertices of the match graph: every endpoint of a match. -/
def endpointsOf (ms : Finset (Nat × Nat)) : Finset Nat :=
  ms.image Prod.fst ∪ ms.image Prod.snd

/-- `nodes[v]`: the neighbours of `v` in the match graph
(`nodes[a].insert(b); nodes[b].insert(a)` over all matches). -/
def adjOf (ms : Finset (Nat × Nat)) (v : Nat) : Finset Nat :=
  ((ms.filter (fun e => e.1 = v)).image Prod.snd)
    ∪ ((ms.filter (fun e => e.2 = v)).image Prod.fst)

/-- The BFS loop of `find_clusters`: pop the first frontier node, add it to
the cluster, mark it visited, and push its unvisited neighbours (marking
them visited as they are pushed).  Returns the cluster and the remaining
unvisited set. -/
def bfsAux (adj : Nat → Finset Nat) :
    List Nat → Finset Nat → Finset Nat → Finset Nat × Finset Nat
  | [], unvisited, cluster => (cluster, unvisited)
  | n :: rest, unvisited, cluster =>
      bfsAux adj (rest ++ (((unvisited.erase n) ∩ adj n).sort (· ≤ ·)))
        ((unvisited.erase n) \ adj n) (insert n cluster)
termination_by frontier unvisited _ => frontier.length + 2 * unvisited.card
decreasing_by
  simp only [List.length_append, Finset.length_sort, List.length_cons]
  have hsplit := Finset.card_sdiff_add_card_inter (unvisited.erase n) (adj n)
  have herase : (unvisited.erase n).card ≤ unvisited.card := Finset.card_erase_le
  omega

/-- The outer loop of `find_clusters`: start a BFS from every not yet
visited vertex, in iteration order. -/
def clustersAux (adj : Nat → Finset Nat) :
    List Nat → Finset Nat → List (Finset Nat)
  | [], _ => []
  | v :: rest, unvisited =>
      if v ∈ unvisited then
        let r := bfsAux adj ((adj v).sort (· ≤ ·)) (unvisited.erase v) {v}
        r.1 :: clustersAux adj rest r.2
      else clustersAux adj rest unvisited

/-- `Simhash::find_clusters`. -/
def find_clusters (hashes : List Nat) (number_of_blocks different_bits : Nat) :
    Except String (List (Finset Nat)) := do
  let ms ← find_all hashes number_of_blocks different_bits
  .ok (clustersAux (adjOf ms) ((endpointsOf ms).sort (· ≤ ·)) (endpointsOf ms))

/-- Whether an `Except` result is a success. -/
def exceptIsOk {ε α : Type} : Except ε α → Bool
  | .ok _ => true
  | .error _ => false

/-!
## Correctness of the clustering
-/

/-- Reachability along the neighbour function. -/
def Reach (adj : Nat → Finset Nat) (a b : Nat) : Prop :=
  Relation.ReflTransGen (fun u w => w ∈ adj u) a b

/-- One match edge, as an undirected step. -/
def MatchStep (R : Finset (Nat × Nat)) (u w : Nat) : Prop :=
  (u, w) ∈ R ∨ (w, u) ∈ R

/-- A path of match edges. -/
def MatchPath (R : Finset (Nat × Nat)) (a b : Nat) : Prop :=
  Relation.ReflTransGen (MatchStep R) a b

/-!
## Theorems
-/

theorem popcount_zero : popcount 0 = 0 := by
  unfold popcount; simp

theorem popcount_def (n : Nat) : popcount n = n % 2 + popcount (n / 2) := by
  by_cases h : n = 0
  · subst h; simp [popcount_zero]
  · rw [popcount]; simp [h]

theorem popcount_one : popcount 1 = 1 := by
  rw [popcount_def]
  norm_num [popcount_zero]

theorem popcount_two_mul (a : Nat) : popcount (2 * a) = popcount a := by
  rw [popcount_def (2 * a)]
  have h1 : 2 * a % 2 = 0 := by omega
  have h2 : 2 * a / 2 = a := by omega
  rw [h1, h2]
  omega

theorem popcount_two_mul_add_one (a : Nat) :
    popcount (2 * a + 1) = 1 + popcount a := by
  rw [popcount_def (2 * a + 1)]
  have h1 : (2 * a + 1) % 2 = 1 := by omega
  have h2 : (2 * a + 1) / 2 = a := by omega
  rw [h1, h2]

theorem land_two_mul_add_one_two_mul (a : Nat) : (2 * a + 1) &&& (2 * a) = 2 * a := by
  apply Nat.eq_of_testBit_eq
  intro i
  cases i with
  | zero =>
      rw [Nat.testBit_land]
      rw [Nat.testBit_zero, Nat.testBit_zero]
      have h1 : (2 * a + 1) % 2 = 1 := by omega
      have h2 : (2 * a) % 2 = 0 := by omega
      simp [h1, h2]
  | succ i =>
      rw [Nat.testBit_land]
      rw [Nat.testBit_succ, Nat.testBit_succ]
      have h1 : (2 * a + 1) / 2 = a := by omega
      have h2 : (2 * a) / 2 = a := by omega
      rw [h1, h2]
      simp

theorem land_two_mul_pred (a : Nat) (ha : a ≠ 0) :
    (2 * a) &&& (2 * a - 1) = 2 * (a &&& (a - 1)) := by
  apply Nat.eq_of_testBit_eq
  intro i
  cases i with
  | zero =>
      rw [Nat.testBit_land]
      rw [Nat.testBit_zero, Nat.testBit_zero]
      have h1 : (2 * a) % 2 = 0 := by omega
      have h2 : (2 * (a &&& (a - 1))) % 2 = 0 := by omega
      simp [h1, h2]
  | succ i =>
      rw [Nat.testBit_land]
      rw [Nat.testBit_succ, Nat.testBit_succ, Nat.testBit_succ]
      have h1 : (2 * a) / 2 = a := by omega
      have h2 : (2 * a - 1) / 2 = a - 1 := by omega
      have h3 : (2 * (a &&& (a - 1))) / 2 = a &&& (a - 1) := by omega
      rw [h1, h2, h3, Nat.testBit_land]

theorem popcount_land_pred (n : Nat) (hn : n ≠ 0) :
    popcount (n &&& (n - 1)) + 1 = popcount n := by
  induction n using Nat.strong_induction_on with
  | _ n ih =>
    rcases Nat.even_or_odd n with he | ho
    · obtain ⟨a, ha⟩ := he
      have ha2 : n = 2 * a := by omega
      subst ha2
      have ha0 : a ≠ 0 := by omega
      rw [land_two_mul_pred a ha0, popcount_two_mul, popcount_two_mul]
      exact ih a (by omega) ha0
    · obtain ⟨a, ha⟩ := ho
      subst ha
      have h1 : 2 * a + 1 - 1 = 2 * a := by omega
      rw [h1, land_two_mul_add_one_two_mul, popcount_two_mul,
        popcount_two_mul_add_one]
      omega

theorem kernighanCount_eq_popcount (n : Nat) : kernighanCount n = popcount n := by
  induction n using Nat.strong_induction_on with
  | _ n ih =>
    by_cases h : n = 0
    · subst h; rw [kernighanCount]; simp [popcount_zero]
    · rw [kernighanCount]
      simp only [h, dite_false]
      have hlt : n &&& (n - 1) < n := by
        have h1 : n &&& (n - 1) ≤ n - 1 := Nat.and_le_right
        omega
      rw [ih _ hlt]
      have := popcount_land_pred n h
      omega

theorem num_differing_bits_eq_popcount (a b : Nat) :
    num_differing_bits a b = popcount (a ^^^ b) := by
  rw [num_differing_bits, kernighanCount_eq_popcount]

/-- `popcount` as a sum of bit indicators, for `n < 2 ^ k`. -/
theorem popcount_eq_sum (k : Nat) :
    ∀ n, n < 2 ^ k →
      popcount n = ∑ i ∈ Finset.range k, (if n.testBit i then 1 else 0) := by
  induction k with
  | zero =>
      intro n hn
      have : n = 0 := by simpa using hn
      subst this
      simp [popcount_zero]
  | succ k ih =>
      intro n hn
      rw [popcount_def n, Finset.sum_range_succ']
      have hdiv : n / 2 < 2 ^ k := by
        have : 2 ^ (k + 1) = 2 * 2 ^ k := by ring
        omega
      rw [ih (n / 2) hdiv]
      have hbit0 : (if n.testBit 0 then 1 else 0) = n % 2 := by
        rw [Nat.testBit_zero]
        rcases Nat.mod_two_eq_zero_or_one n with h | h <;> simp [h]
      have hbits : ∀ i, n.testBit (i + 1) = (n / 2).testBit i := by
        intro i
        exact Nat.testBit_succ n i
      simp only [hbits, hbit0]
      omega

theorem popcount_eq_card (k n : Nat) (hn : n < 2 ^ k) :
    popcount n = ((Finset.range k).filter (fun i => n.testBit i)).card := by
  rw [popcount_eq_sum k n hn, Finset.card_filter]

theorem popcount_pos_of_ne_zero (n : Nat) (hn : n ≠ 0) : 1 ≤ popcount n := by
  have := popcount_land_pred n hn
  omega

theorem bitCounter_foldl (hashes : List Nat) (i : Nat) (acc : Int) :
    hashes.foldl (fun acc hash => acc + if (hash >>> i) &&& 1 = 1 then 1 else -1) acc
      = acc + (hashes.countP (fun h => h.testBit i) : Int)
          - ((hashes.length : Int) - (hashes.countP (fun h => h.testBit i) : Int)) := by
  induction hashes generalizing acc with
  | nil => simp
  | cons h t ih =>
      simp only [List.foldl_cons, List.countP_cons, List.length_cons]
      rw [ih]
      have hbit : h.testBit i = decide ((h >>> i) &&& 1 = 1) := by
        simp [Nat.testBit, Nat.and_one_is_mod]
      by_cases hc : (h >>> i) &&& 1 = 1
      · simp only [hc, if_pos, hbit]
        simp
        push_cast
        ring
      · simp only [hc, if_neg, hbit]
        simp [hc]
        push_cast
        ring

theorem bitCounter_eq (hashes : List Nat) (i : Nat) :
    bitCounter hashes i
      = 2 * (hashes.countP (fun h => h.testBit i) : Int) - (hashes.length : Int) := by
  rw [bitCounter, bitCounter_foldl]
  ring

/-- `testBit` through the result-assembly loop of `compute`: a fold that
`OR`s `1 << i` for selected indices `i` of a `Nodup` list. -/
theorem testBit_one_shiftLeft (x j : Nat) : (1 <<< x).testBit j = decide (x = j) := by
  rw [Nat.shiftLeft_eq, one_mul, Nat.testBit_two_pow]

theorem testBit_foldl_or (cond : Nat → Prop) [DecidablePred cond] (l : List Nat)
    (acc : Nat) (j : Nat) :
    (l.foldl (fun result i => if cond i then result ||| (1 <<< i) else result) acc).testBit j
      = true ↔ (acc.testBit j = true ∨ (j ∈ l ∧ cond j)) := by
  induction l generalizing acc with
  | nil => simp
  | cons x t ih =>
      simp only [List.foldl_cons, List.mem_cons]
      rw [ih]
      by_cases hc : cond x
      · simp only [hc, if_pos]
        rw [Nat.testBit_lor, testBit_one_shiftLeft]
        by_cases hxj : x = j
        · subst hxj
          simp [hc]
        · simp only [hxj, decide_eq_true_eq, Bool.or_eq_true, decide_eq_true_iff]
          constructor
          · rintro (hb | hmem)
            · rcases hb with hb | hb
              · exact Or.inl hb
              · exact hb.elim
            · exact Or.inr ⟨Or.inr hmem.1, hmem.2⟩
          · rintro (hb | ⟨rfl | hj, hcj⟩)
            · exact Or.inl (Or.inl hb)
            · exact absurd rfl hxj
            · exact Or.inr ⟨hj, hcj⟩
      · simp only [hc, if_neg, not_false_iff]
        constructor
        · rintro (hb | hmem)
          · exact Or.inl hb
          · exact Or.inr ⟨Or.inr hmem.1, hmem.2⟩
        · rintro (hb | ⟨rfl | hj, hcj⟩)
          · exact Or.inl hb
          · exact absurd hcj hc
          · exact Or.inr ⟨hj, hcj⟩

theorem testBit_compute (hashes : List Nat) (j : Nat) :
    (compute hashes).testBit j = true ↔ j < 64 ∧ 0 < bitCounter hashes j := by
  rw [compute, BITS, testBit_foldl_or]
  simp [List.mem_range]

theorem testBit_onesRun (lo w i : Nat) :
    (onesRun lo w).testBit i = true ↔ lo ≤ i ∧ i < lo + w := by
  rw [onesRun, Nat.testBit_shiftLeft, Nat.testBit_two_pow_sub_one]
  simp only [Bool.and_eq_true, decide_eq_true_eq, ge_iff_le]
  omega

theorem testBit_onesRun_false (lo w i : Nat) (h : i < lo ∨ lo + w ≤ i) :
    (onesRun lo w).testBit i = false := by
  rw [← Bool.not_eq_true, testBit_onesRun]
  omega

theorem onesRun_lt (lo w : Nat) (h : lo + w ≤ 64) : onesRun lo w < 2 ^ 64 := by
  rw [onesRun, Nat.shiftLeft_eq]
  calc (2 ^ w - 1) * 2 ^ lo < 2 ^ w * 2 ^ lo := by
        have h1 : 0 < 2 ^ w := Nat.pos_pow_of_pos w (by norm_num)
        have h2 : 0 < 2 ^ lo := Nat.pos_pow_of_pos lo (by norm_num)
        exact (Nat.mul_lt_mul_right h2).mpr (by omega)
    _ = 2 ^ (w + lo) := by rw [← pow_add]
    _ ≤ 2 ^ 64 := Nat.pow_le_pow_right (by norm_num) (by omega)

theorem onesRun_shiftLeft (lo w d : Nat) :
    onesRun lo w <<< d = onesRun (lo + d) w := by
  rw [onesRun, onesRun, Nat.shiftLeft_eq, Nat.shiftLeft_eq, Nat.shiftLeft_eq,
    mul_assoc, ← pow_add]

theorem shiftLeft_shiftRight_of_le (x a b : Nat) (h : b ≤ a) :
    (x <<< a) >>> b = x <<< (a - b) := by
  rw [Nat.shiftLeft_eq, Nat.shiftRight_eq_div_pow, Nat.shiftLeft_eq]
  have key : x * 2 ^ a = (x * 2 ^ (a - b)) * 2 ^ b := by
    rw [mul_assoc, ← pow_add, Nat.sub_add_cancel h]
  rw [key]
  exact Nat.mul_div_cancel _ (Nat.pos_pow_of_pos b (by norm_num))

theorem onesRun_shiftRight (lo w b : Nat) (h : b ≤ lo) :
    onesRun lo w >>> b = onesRun (lo - b) w := by
  rw [onesRun, onesRun, shiftLeft_shiftRight_of_le _ _ _ h]

theorem findFirstSetFrom_spec (mask : Nat) :
    ∀ fuel i k, k < fuel →
      (∀ t, t < k → mask.testBit (i + t) = false) →
      mask.testBit (i + k) = true →
      findFirstSetFrom mask fuel i = i + k := by
  intro fuel
  induction fuel with
  | zero => omega
  | succ fuel ih =>
      intro i k hk hlow hbit
      rw [findFirstSetFrom]
      cases k with
      | zero =>
          simp only [Nat.add_zero] at hbit
          simp [hbit]
      | succ k =>
          have h0 : mask.testBit i = false := by
            have := hlow 0 (by omega)
            simpa using this
          rw [h0]
          simp only [Bool.false_eq_true, if_false]
          have := ih (i + 1) k (by omega)
            (fun t ht => by
              have := hlow (t + 1) (by omega)
              simpa [Nat.add_assoc, Nat.add_comm 1 t] using this)
            (by simpa [Nat.add_assoc, Nat.add_comm 1 k] using hbit)
          omega

theorem findFirstSet_onesRun (lo w : Nat) (hw : 0 < w) (hlo : lo < 64) :
    findFirstSet (onesRun lo w) = lo := by
  rw [findFirstSet]
  have := findFirstSetFrom_spec (onesRun lo w) 64 0 lo hlo
    (fun t ht => testBit_onesRun_false lo w (0 + t) (by omega))
    (by rw [(testBit_onesRun lo w (0 + lo)).2 (by omega)])
  omega

theorem findRunEndFrom_spec (mask : Nat) :
    ∀ fuel j k, k ≤ fuel →
      (∀ t, t < k → j + t < 64 ∧ mask.testBit (j + t) = true) →
      ¬(j + k < 64 ∧ mask.testBit (j + k) = true) →
      findRunEndFrom mask fuel j = j + k := by
  intro fuel
  induction fuel with
  | zero =>
      intro j k hk _ _
      interval_cases k
      simp [findRunEndFrom]
  | succ fuel ih =>
      intro j k hk hrun hstop
      rw [findRunEndFrom]
      cases k with
      | zero =>
          simp only [Nat.add_zero] at hstop
          simp [hstop]
      | succ k =>
          have h0 := hrun 0 (by omega)
          simp only [Nat.add_zero] at h0
          rw [if_pos h0]
          have := ih (j + 1) k (by omega)
            (fun t ht => by
              have := hrun (t + 1) (by omega)
              constructor
              · omega
              · have h2 := this.2
                rw [show j + 1 + t = j + (t + 1) by omega]
                exact h2)
            (by
              rw [show j + 1 + k = j + (k + 1) by omega]
              exact hstop)
          omega

theorem findRunEnd_onesRun (lo w : Nat) (h64 : lo + w ≤ 64) (hw : w ≤ 64) :
    findRunEnd (onesRun lo w) lo = lo + w := by
  rw [findRunEnd]
  exact findRunEndFrom_spec (onesRun lo w) 64 lo w hw
    (fun t ht => ⟨by omega, (testBit_onesRun lo w (lo + t)).2 (by omega)⟩)
    (by
      intro hcontra
      have := hcontra.2
      rw [testBit_onesRun_false lo w (lo + w) (by omega)] at this
      exact Bool.false_ne_true this)

theorem permScan_spec (specs : List (Nat × Nat)) :
    ∀ width, ChainOK width specs →
      permScan width (specMasks specs) =
        (specs.map Prod.snd, offsetsOf width specs, rmasksOf width specs) := by
  induction specs with
  | nil => intro width _; rfl
  | cons s rest ih =>
      intro width hok
      obtain ⟨hw, hlw, hacc, hrest⟩ := hok
      rw [specMasks, List.map_cons, permScan]
      rw [show (List.map (fun s => onesRun s.1 s.2) rest) = specMasks rest from rfl]
      have hi : findFirstSet (onesRun s.1 s.2) = s.1 :=
        findFirstSet_onesRun s.1 s.2 hw (by omega)
      have hj : findRunEnd (onesRun s.1 s.2) s.1 = s.1 + s.2 :=
        findRunEnd_onesRun s.1 s.2 hlw (by omega)
      simp only [hi, hj]
      have hji : s.1 + s.2 - s.1 = s.2 := by omega
      rw [hji]
      rw [ih (width + s.2) hrest]
      simp only [List.map_cons, offsetsOf, rmasksOf]
      split
      · rename_i hpos
        have htn : ((64 : Int) - ((width + s.2 : Nat) : Int) - (s.1 : Int)).toNat
            = 64 - (width + s.2) - s.1 := by omega
        have hv : (onesRun s.1 s.2
              <<< ((64 : Int) - ((width + s.2 : Nat) : Int) - (s.1 : Int)).toNat) % 2 ^ 64
            = onesRun (64 - (width + s.2)) s.2 := by
          rw [htn, onesRun_shiftLeft]
          have harg : s.1 + (64 - (width + s.2) - s.1) = 64 - (width + s.2) := by omega
          rw [harg]
          exact Nat.mod_eq_of_lt (onesRun_lt _ _ (by omega))
        rw [hv]
      · rename_i hpos
        have htn : (-((64 : Int) - ((width + s.2 : Nat) : Int) - (s.1 : Int))).toNat
            = s.1 - (64 - (width + s.2)) := by omega
        have hv : onesRun s.1 s.2
              >>> (-((64 : Int) - ((width + s.2 : Nat) : Int) - (s.1 : Int))).toNat
            = onesRun (64 - (width + s.2)) s.2 := by
          rw [htn, onesRun_shiftRight _ _ _ (by omega)]
          have harg : s.1 - (s.1 - (64 - (width + s.2))) = 64 - (width + s.2) := by omega
          rw [harg]
        rw [hv]

theorem two_mul_lor_one (s : Nat) : 2 * s ||| 1 = 2 * s + 1 := by
  apply Nat.eq_of_testBit_eq
  intro i
  cases i with
  | zero =>
      rw [Nat.testBit_lor, Nat.testBit_zero, Nat.testBit_zero, Nat.testBit_zero]
      have h1 : 2 * s % 2 = 0 := by omega
      have h2 : (2 * s + 1) % 2 = 1 := by omega
      simp [h1, h2]
  | succ i =>
      rw [Nat.testBit_lor, Nat.testBit_succ, Nat.testBit_succ, Nat.testBit_succ]
      have h1 : 2 * s / 2 = s := by omega
      have h2 : (2 * s + 1) / 2 = s := by omega
      have h3 : (1 : Nat) / 2 = 0 := by omega
      rw [h1, h2, h3]
      simp

theorem onesLoop_spec : ∀ (k s : Nat), (s + 1) * 2 ^ k ≤ 2 ^ 64 →
    onesLoop s k = (s + 1) * 2 ^ k - 1 := by
  intro k
  induction k with
  | zero => intro s _; simp [onesLoop]
  | succ k ih =>
      intro s hs
      rw [onesLoop]
      have hshift : s <<< 1 = 2 * s := by rw [Nat.shiftLeft_eq]; ring
      rw [hshift, two_mul_lor_one]
      have hstep : (2 * s + 1 + 1) * 2 ^ k = (s + 1) * 2 ^ (k + 1) := by
        rw [pow_succ]; ring
      have hlt : 2 * s + 1 < 2 ^ 64 := by
        have h2 : 2 * s + 1 + 1 ≤ (2 * s + 1 + 1) * 2 ^ k :=
          Nat.le_mul_of_pos_right _ (Nat.pos_pow_of_pos k (by norm_num))
        omega
      rw [Nat.mod_eq_of_lt hlt, ih (2 * s + 1) (by rw [hstep]; exact hs), hstep]

theorem shiftLoop_spec : ∀ (k s : Nat), s * 2 ^ k < 2 ^ 64 →
    shiftLoop s k = s * 2 ^ k := by
  intro k
  induction k with
  | zero => intro s _; simpa using (by rw [shiftLoop] : shiftLoop s 0 = s)
  | succ k ih =>
      intro s hs
      rw [shiftLoop]
      have h1 : s <<< 1 = s * 2 := by rw [Nat.shiftLeft_eq]
      have hstep : (s * 2) * 2 ^ k = s * 2 ^ (k + 1) := by rw [pow_succ]; ring
      have hlt : s * 2 < 2 ^ 64 := by
        have h2 : s * 2 ≤ (s * 2) * 2 ^ k :=
          Nat.le_mul_of_pos_right _ (Nat.pos_pow_of_pos k (by norm_num))
        omega
      rw [h1, Nat.mod_eq_of_lt hlt, ih (s * 2) (by rw [hstep]; exact hs), hstep]

theorem searchMask_loops (W : Nat) (hW : W ≤ 64) :
    shiftLoop (onesLoop 0 W) (64 - W) = onesRun (64 - W) W := by
  have hbound : (2 : Nat) ^ W ≤ 2 ^ 64 := Nat.pow_le_pow_right (by norm_num) hW
  have h1 : onesLoop 0 W = 2 ^ W - 1 := by
    rw [onesLoop_spec W 0 (by omega)]
    omega
  have h2 : (2 ^ W - 1) * 2 ^ (64 - W) < 2 ^ 64 := by
    have := onesRun_lt (64 - W) W (by omega)
    rw [onesRun, Nat.shiftLeft_eq] at this
    exact this
  rw [h1, shiftLoop_spec (64 - W) (2 ^ W - 1) h2, onesRun, Nat.shiftLeft_eq]

theorem ChainOK_take_sum (specs : List (Nat × Nat)) :
    ∀ width, width ≤ 64 → ChainOK width specs →
      ∀ k, width + ((specs.take k).map Prod.snd).sum ≤ 64 := by
  induction specs with
  | nil => intro width hw _ k; simp [hw]
  | cons s rest ih =>
      intro width hw hok k
      obtain ⟨hpos, hlw, hacc, hrest⟩ := hok
      cases k with
      | zero => simpa using hw
      | succ k =>
          simp only [List.take_succ_cons, List.map_cons, List.sum_cons]
          have := ih (width + s.2) hacc hrest k
          omega

theorem build_forward_masks (d : Nat) (masks : List Nat) :
    (Permutation.build d masks).forward_masks = masks := rfl

theorem build_offsets (d : Nat) (specs : List (Nat × Nat)) (h : ChainOK 0 specs) :
    (Permutation.build d (specMasks specs)).offsets = offsetsOf 0 specs := by
  rw [Permutation.build]
  simp only [permScan_spec specs 0 h]

theorem build_reverse_masks (d : Nat) (specs : List (Nat × Nat)) (h : ChainOK 0 specs) :
    (Permutation.build d (specMasks specs)).reverse_masks = rmasksOf 0 specs := by
  rw [Permutation.build]
  simp only [permScan_spec specs 0 h]

theorem build_search_mask (d : Nat) (specs : List (Nat × Nat)) (h : ChainOK 0 specs) :
    (Permutation.build d (specMasks specs)).search_mask_ =
      onesRun (64 - (((specs.take (specs.length - d)).map Prod.snd).sum))
        (((specs.take (specs.length - d)).map Prod.snd).sum) := by
  rw [Permutation.build]
  simp only [permScan_spec specs 0 h]
  have hlen : (specs.map Prod.snd).length = specs.length := List.length_map _ _
  have htake : ((specs.map Prod.snd).take (specs.length - d)).sum
      = ((specs.take (specs.length - d)).map Prod.snd).sum := by
    rw [List.map_take]
  rw [hlen, htake]
  exact searchMask_loops _ (by
    have := ChainOK_take_sum specs 0 (by omega) h (specs.length - d)
    omega)

theorem testBit_moveBits (hash lo w dst i : Nat) :
    (moveBits hash lo w dst).testBit i = true ↔
      dst ≤ i ∧ i < dst + w ∧ hash.testBit (lo + (i - dst)) = true := by
  rw [moveBits, Nat.testBit_shiftLeft, Nat.testBit_land, Nat.testBit_shiftRight,
    Nat.testBit_two_pow_sub_one]
  simp only [Bool.and_eq_true, decide_eq_true_eq, ge_iff_le]
  constructor
  · rintro ⟨h1, h2, h3⟩
    exact ⟨h1, by omega, h2⟩
  · rintro ⟨h1, h2, h3⟩
    exact ⟨h1, h3, by omega⟩

theorem moveBits_lt (hash lo w dst : Nat) (h : dst + w ≤ 64) :
    moveBits hash lo w dst < 2 ^ 64 := by
  apply Nat.lt_pow_two_of_testBit
  intro i hi
  rw [← Bool.not_eq_true, testBit_moveBits]
  omega

theorem land_onesRun (hash lo w : Nat) :
    hash &&& onesRun lo w = ((hash >>> lo) &&& (2 ^ w - 1)) <<< lo := by
  apply Nat.eq_of_testBit_eq
  intro i
  rw [Nat.testBit_land]
  rw [show (((hash >>> lo) &&& (2 ^ w - 1)) <<< lo) = moveBits hash lo w lo from rfl]
  by_cases hin : lo ≤ i ∧ i < lo + w
  · have d1 : (onesRun lo w).testBit i = true := (testBit_onesRun lo w i).2 hin
    rw [d1]
    have harg : lo + (i - lo) = i := by omega
    by_cases hb : hash.testBit i = true
    · rw [hb, (testBit_moveBits hash lo w lo i).2 ⟨hin.1, hin.2, by rw [harg]; exact hb⟩]
      rfl
    · rw [Bool.not_eq_true] at hb
      rw [hb]
      have : (moveBits hash lo w lo).testBit i = false := by
        rw [← Bool.not_eq_true, testBit_moveBits, harg]
        rw [hb]
        simp
      rw [this]
      rfl
  · have d1 : (onesRun lo w).testBit i = false := testBit_onesRun_false lo w i (by omega)
    rw [d1]
    have : (moveBits hash lo w lo).testBit i = false := by
      rw [← Bool.not_eq_true, testBit_moveBits]
      omega
    rw [this]
    simp

theorem apply_eq_foldl_lor (p : Permutation) (hash : Nat) :
    p.apply hash =
      (p.forward_masks.zip p.offsets).foldl (fun r mo => r ||| applyPiece hash mo) 0 := by
  rw [Permutation.apply]
  congr 1
  funext r mo
  rw [applyPiece]
  split
  · rfl
  · rfl

theorem reverse_eq_foldl_lor (p : Permutation) (hash : Nat) :
    p.reverse hash =
      (p.reverse_masks.zip p.offsets).foldl (fun r mo => r ||| reversePiece hash mo) 0 := by
  rw [Permutation.reverse]
  congr 1
  funext r mo
  rw [reversePiece]
  split
  · rfl
  · rfl

theorem testBit_foldl_lor_pieces {α : Type} (g : α → Nat) (L : List α) :
    ∀ (acc i : Nat),
      ((L.foldl (fun r mo => r ||| g mo) acc)).testBit i = true ↔
        acc.testBit i = true ∨ ∃ mo ∈ L, (g mo).testBit i = true := by
  induction L with
  | nil => intro acc i; simp
  | cons x t ih =>
      intro acc i
      simp only [List.foldl_cons, List.mem_cons]
      rw [ih]
      rw [Nat.testBit_lor]
      constructor
      · rintro (hb | hmem)
        · rcases Bool.or_eq_true_iff.mp hb with hb' | hb'
          · exact Or.inl hb'
          · exact Or.inr ⟨x, Or.inl rfl, hb'⟩
        · obtain ⟨mo, hmo, hbit⟩ := hmem
          exact Or.inr ⟨mo, Or.inr hmo, hbit⟩
      · rintro (hb | ⟨mo, hmo | hmo, hbit⟩)
        · exact Or.inl (Bool.or_eq_true_iff.mpr (Or.inl hb))
        · subst hmo
          exact Or.inl (Bool.or_eq_true_iff.mpr (Or.inr hbit))
        · exact Or.inr ⟨mo, hmo, hbit⟩

theorem shiftLeft_shiftLeft_add (x a b : Nat) : (x <<< a) <<< b = x <<< (a + b) := by
  rw [Nat.shiftLeft_eq, Nat.shiftLeft_eq, Nat.shiftLeft_eq, pow_add, mul_assoc]

theorem applyPiece_moveBits (hash lo w dst : Nat) (hlw : lo + w ≤ 64)
    (hdw : dst + w ≤ 64) :
    applyPiece hash (onesRun lo w, (dst : Int) - (lo : Int)) = moveBits hash lo w dst := by
  rw [applyPiece, land_onesRun]
  split
  · rename_i hpos
    have htn : ((dst : Int) - (lo : Int)).toNat = dst - lo := by omega
    rw [htn, shiftLeft_shiftLeft_add]
    have harg : lo + (dst - lo) = dst := by omega
    rw [harg]
    exact Nat.mod_eq_of_lt (moveBits_lt hash lo w dst hdw)
  · rename_i hpos
    have htn : (-((dst : Int) - (lo : Int))).toNat = lo - dst := by omega
    rw [htn, shiftLeft_shiftRight_of_le _ _ _ (by omega)]
    have harg : lo - (lo - dst) = dst := by omega
    rw [harg, moveBits]

theorem reversePiece_moveBits (hash lo w dst : Nat) (hlw : lo + w ≤ 64)
    (hdw : dst + w ≤ 64) :
    reversePiece hash (onesRun dst w, (dst : Int) - (lo : Int)) = moveBits hash dst w lo := by
  rw [reversePiece, land_onesRun]
  split
  · rename_i hpos
    have htn : ((dst : Int) - (lo : Int)).toNat = dst - lo := by omega
    rw [htn, shiftLeft_shiftRight_of_le _ _ _ (by omega)]
    have harg : dst - (dst - lo) = lo := by omega
    rw [harg, moveBits]
  · rename_i hpos
    have htn : (-((dst : Int) - (lo : Int))).toNat = lo - dst := by omega
    rw [htn, shiftLeft_shiftLeft_add]
    have harg : dst + (lo - dst) = lo := by omega
    rw [harg]
    exact Nat.mod_eq_of_lt (moveBits_lt hash dst w lo hlw)

theorem zip_apply_pieces (specs : List (Nat × Nat)) :
    ∀ width, ChainOK width specs →
      (specMasks specs).zip (offsetsOf width specs)
        = (withDst width specs).map
            (fun sd => (onesRun sd.1.1 sd.1.2, (sd.2 : Int) - (sd.1.1 : Int))) := by
  induction specs with
  | nil => intro width _; rfl
  | cons s rest ih =>
      intro width hok
      obtain ⟨hw, hlw, hacc, hrest⟩ := hok
      simp only [specMasks, List.map_cons, offsetsOf, withDst, List.zip_cons_cons]
      rw [show (List.map (fun s => onesRun s.1 s.2) rest) = specMasks rest from rfl]
      rw [ih (width + s.2) hrest]
      have hcast : ((64 : Int) - ((width + s.2 : Nat) : Int) - (s.1 : Int))
          = (((64 - (width + s.2) : Nat)) : Int) - (s.1 : Int) := by omega
      rw [hcast]

theorem zip_reverse_pieces (specs : List (Nat × Nat)) :
    ∀ width, ChainOK width specs →
      (rmasksOf width specs).zip (offsetsOf width specs)
        = (withDst width specs).map
            (fun sd => (onesRun sd.2 sd.1.2, (sd.2 : Int) - (sd.1.1 : Int))) := by
  induction specs with
  | nil => intro width _; rfl
  | cons s rest ih =>
      intro width hok
      obtain ⟨hw, hlw, hacc, hrest⟩ := hok
      simp only [rmasksOf, offsetsOf, withDst, List.map_cons, List.zip_cons_cons]
      rw [ih (width + s.2) hrest]
      have hcast : ((64 : Int) - ((width + s.2 : Nat) : Int) - (s.1 : Int))
          = (((64 - (width + s.2) : Nat)) : Int) - (s.1 : Int) := by omega
      rw [hcast]

theorem withDst_mem_bounds (specs : List (Nat × Nat)) :
    ∀ width, ChainOK width specs → ∀ sd ∈ withDst width specs,
      0 < sd.1.2 ∧ sd.1.1 + sd.1.2 ≤ 64 ∧ sd.2 + sd.1.2 ≤ 64 - width := by
  induction specs with
  | nil => intro width _ sd hsd; simp [withDst] at hsd
  | cons s rest ih =>
      intro width hok sd hsd
      obtain ⟨hw, hlw, hacc, hrest⟩ := hok
      rw [withDst] at hsd
      rcases List.mem_cons.mp hsd with hsd | hsd
      · subst hsd
        exact ⟨hw, hlw, by simp; omega⟩
      · have := ih (width + s.2) hrest sd hsd
        exact ⟨this.1, this.2.1, by omega⟩

theorem testBit_apply_build (d : Nat) (specs : List (Nat × Nat)) (h : ChainOK 0 specs)
    (hash i : Nat) :
    ((Permutation.build d (specMasks specs)).apply hash).testBit i = true ↔
      ∃ sd ∈ withDst 0 specs, sd.2 ≤ i ∧ i < sd.2 + sd.1.2 ∧
        hash.testBit (sd.1.1 + (i - sd.2)) = true := by
  rw [apply_eq_foldl_lor, build_forward_masks, build_offsets d specs h,
    zip_apply_pieces specs 0 h]
  rw [List.foldl_map, testBit_foldl_lor_pieces]
  simp only [Nat.zero_testBit, Bool.false_eq_true, false_or]
  constructor
  · rintro ⟨sd, hsd, hbit⟩
    obtain ⟨hw, hlw, hdw⟩ := withDst_mem_bounds specs 0 h sd hsd
    rw [applyPiece_moveBits hash sd.1.1 sd.1.2 sd.2 hlw (by omega)] at hbit
    rw [testBit_moveBits] at hbit
    exact ⟨sd, hsd, hbit⟩
  · rintro ⟨sd, hsd, hbit⟩
    obtain ⟨hw, hlw, hdw⟩ := withDst_mem_bounds specs 0 h sd hsd
    refine ⟨sd, hsd, ?_⟩
    rw [applyPiece_moveBits hash sd.1.1 sd.1.2 sd.2 hlw (by omega), testBit_moveBits]
    exact hbit

theorem testBit_reverse_build (d : Nat) (specs : List (Nat × Nat)) (h : ChainOK 0 specs)
    (hash i : Nat) :
    ((Permutation.build d (specMasks specs)).reverse hash).testBit i = true ↔
      ∃ sd ∈ withDst 0 specs, sd.1.1 ≤ i ∧ i < sd.1.1 + sd.1.2 ∧
        hash.testBit (sd.2 + (i - sd.1.1)) = true := by
  rw [reverse_eq_foldl_lor, build_reverse_masks d specs h, build_offsets d specs h,
    zip_reverse_pieces specs 0 h]
  rw [List.foldl_map, testBit_foldl_lor_pieces]
  simp only [Nat.zero_testBit, Bool.false_eq_true, false_or]
  constructor
  · rintro ⟨sd, hsd, hbit⟩
    obtain ⟨hw, hlw, hdw⟩ := withDst_mem_bounds specs 0 h sd hsd
    rw [reversePiece_moveBits hash sd.1.1 sd.1.2 sd.2 hlw (by omega)] at hbit
    rw [testBit_moveBits] at hbit
    exact ⟨sd, hsd, hbit⟩
  · rintro ⟨sd, hsd, hbit⟩
    obtain ⟨hw, hlw, hdw⟩ := withDst_mem_bounds specs 0 h sd hsd
    refine ⟨sd, hsd, ?_⟩
    rw [reversePiece_moveBits hash sd.1.1 sd.1.2 sd.2 hlw (by omega), testBit_moveBits]
    exact hbit

theorem ChainOK_of_bounds (specs : List (Nat × Nat)) :
    ∀ width, (∀ s ∈ specs, 0 < s.2 ∧ s.1 + s.2 ≤ 64) →
      width + (specs.map Prod.snd).sum ≤ 64 → ChainOK width specs := by
  induction specs with
  | nil => intro width _ _; trivial
  | cons s rest ih =>
      intro width hb hsum
      simp only [List.map_cons, List.sum_cons] at hsum
      have hs := hb s (List.mem_cons_self s rest)
      exact ⟨hs.1, hs.2, by omega,
        ih (width + s.2) (fun t ht => hb t (List.mem_cons_of_mem s ht)) (by omega)⟩

theorem SpecsPartition.chainOK {specs : List (Nat × Nat)} (h : SpecsPartition specs) :
    ChainOK 0 specs :=
  ChainOK_of_bounds specs 0 h.1 (by have := h.2.1; omega)

theorem withDst_map_fst (specs : List (Nat × Nat)) :
    ∀ width, (withDst width specs).map Prod.fst = specs := by
  induction specs with
  | nil => intro width; rfl
  | cons s rest ih =>
      intro width
      simp only [withDst, List.map_cons, ih (width + s.2)]

theorem withDst_fst_mem (specs : List (Nat × Nat)) :
    ∀ width sd, sd ∈ withDst width specs → sd.1 ∈ specs := by
  intro width sd hsd
  have := List.mem_map_of_mem Prod.fst hsd
  rwa [withDst_map_fst specs width] at this

theorem withDst_cover (specs : List (Nat × Nat)) :
    ∀ width, ChainOK width specs →
      ∀ i, 64 - width - (specs.map Prod.snd).sum ≤ i → i < 64 - width →
        ∃ sd ∈ withDst width specs, sd.2 ≤ i ∧ i < sd.2 + sd.1.2 := by
  induction specs with
  | nil => intro width _ i hlow hhigh; simp at hlow hhigh; omega
  | cons s rest ih =>
      intro width hok i hlow hhigh
      obtain ⟨hw, hlw, hacc, hrest⟩ := hok
      simp only [List.map_cons, List.sum_cons] at hlow
      by_cases hcase : 64 - (width + s.2) ≤ i
      · refine ⟨(s, 64 - (width + s.2)), List.mem_cons_self _ _, hcase, ?_⟩
        show i < 64 - (width + s.2) + s.2
        omega
      · obtain ⟨sd, hsd, h1, h2⟩ := ih (width + s.2) hrest i (by omega) (by omega)
        exact ⟨sd, List.mem_cons_of_mem _ hsd, h1, h2⟩

theorem withDst_dst_unique (specs : List (Nat × Nat)) :
    ∀ width, ChainOK width specs →
      ∀ sd ∈ withDst width specs, ∀ sd' ∈ withDst width specs,
        ∀ i, sd.2 ≤ i → i < sd.2 + sd.1.2 → sd'.2 ≤ i → i < sd'.2 + sd'.1.2 → sd = sd' := by
  induction specs with
  | nil => intro width _ sd hsd; simp [withDst] at hsd
  | cons s rest ih =>
      intro width hok sd hsd sd' hsd' i h1 h2 h3 h4
      obtain ⟨hw, hlw, hacc, hrest⟩ := hok
      rw [withDst] at hsd hsd'
      rcases List.mem_cons.mp hsd with hsd | hsd <;>
        rcases List.mem_cons.mp hsd' with hsd' | hsd'
      · rw [hsd, hsd']
      · subst hsd
        have hb := withDst_mem_bounds rest (width + s.2) hrest sd' hsd'
        simp at h1 h2
        omega
      · subst hsd'
        have hb := withDst_mem_bounds rest (width + s.2) hrest sd hsd
        simp at h3 h4
        omega
      · exact ih (width + s.2) hrest sd hsd sd' hsd' i h1 h2 h3 h4

theorem withDst_src_unique (specs : List (Nat × Nat)) :
    ∀ width, List.Pairwise specDisj specs →
      ∀ sd ∈ withDst width specs, ∀ sd' ∈ withDst width specs,
        ∀ j, sd.1.1 ≤ j → j < sd.1.1 + sd.1.2 → sd'.1.1 ≤ j → j < sd'.1.1 + sd'.1.2 →
          sd = sd' := by
  induction specs with
  | nil => intro width _ sd hsd; simp [withDst] at hsd
  | cons s rest ih =>
      intro width hpw sd hsd sd' hsd' j h1 h2 h3 h4
      have hpwhead := List.pairwise_cons.mp hpw
      rw [withDst] at hsd hsd'
      rcases List.mem_cons.mp hsd with hsd | hsd <;>
        rcases List.mem_cons.mp hsd' with hsd' | hsd'
      · rw [hsd, hsd']
      · subst hsd
        have hmem := withDst_fst_mem rest (width + s.2) sd' hsd'
        have hdisj := hpwhead.1 sd'.1 hmem
        simp only [specDisj] at hdisj
        simp at h1 h2
        omega
      · subst hsd'
        have hmem := withDst_fst_mem rest (width + s.2) sd hsd
        have hdisj := hpwhead.1 sd.1 hmem
        simp only [specDisj] at hdisj
        simp at h3 h4
        omega
      · exact ih (width + s.2) hpwhead.2 sd hsd sd' hsd' j h1 h2 h3 h4

theorem withDst_src_cover {specs : List (Nat × Nat)} (h : SpecsPartition specs)
    (j : Nat) (hj : j < 64) :
    ∃ sd ∈ withDst 0 specs, sd.1.1 ≤ j ∧ j < sd.1.1 + sd.1.2 := by
  obtain ⟨s, hs, h1, h2⟩ := h.2.2.2 j hj
  rw [← withDst_map_fst specs 0] at hs
  obtain ⟨sd, hsd, hfst⟩ := List.mem_map.mp hs
  exact ⟨sd, hsd, by rw [hfst]; exact h1, by rw [hfst]; exact h2⟩

theorem withDst_dst_cover {specs : List (Nat × Nat)} (h : SpecsPartition specs)
    (i : Nat) (hi : i < 64) :
    ∃ sd ∈ withDst 0 specs, sd.2 ≤ i ∧ i < sd.2 + sd.1.2 := by
  have := withDst_cover specs 0 h.chainOK i (by have := h.2.1; omega) (by omega)
  exact this

theorem apply_build_lt (d : Nat) (specs : List (Nat × Nat)) (h : ChainOK 0 specs)
    (hash : Nat) : (Permutation.build d (specMasks specs)).apply hash < 2 ^ 64 := by
  apply Nat.lt_pow_two_of_testBit
  intro i hi
  rw [← Bool.not_eq_true, testBit_apply_build d specs h]
  rintro ⟨sd, hsd, h1, h2, _⟩
  have := withDst_mem_bounds specs 0 h sd hsd
  omega

theorem reverse_build_lt (d : Nat) (specs : List (Nat × Nat)) (h : ChainOK 0 specs)
    (hash : Nat) : (Permutation.build d (specMasks specs)).reverse hash < 2 ^ 64 := by
  apply Nat.lt_pow_two_of_testBit
  intro i hi
  rw [← Bool.not_eq_true, testBit_reverse_build d specs h]
  rintro ⟨sd, hsd, h1, h2, _⟩
  have := withDst_mem_bounds specs 0 h sd hsd
  omega

theorem testBit_apply_at (d : Nat) (specs : List (Nat × Nat)) (h : ChainOK 0 specs)
    (sd : (Nat × Nat) × Nat) (hsd : sd ∈ withDst 0 specs) (i : Nat)
    (h1 : sd.2 ≤ i) (h2 : i < sd.2 + sd.1.2) (hash : Nat) :
    ((Permutation.build d (specMasks specs)).apply hash).testBit i
      = hash.testBit (sd.1.1 + (i - sd.2)) := by
  by_cases hb : hash.testBit (sd.1.1 + (i - sd.2)) = true
  · rw [hb]
    exact (testBit_apply_build d specs h hash i).2 ⟨sd, hsd, h1, h2, hb⟩
  · rw [Bool.not_eq_true] at hb
    rw [hb, ← Bool.not_eq_true, testBit_apply_build d specs h]
    rintro ⟨sd', hsd', h1', h2', hb'⟩
    have heq := withDst_dst_unique specs 0 h sd' hsd' sd hsd i h1' h2' h1 h2
    rw [heq] at hb'
    rw [hb'] at hb
    exact Bool.noConfusion hb

theorem testBit_apply_none (d : Nat) (specs : List (Nat × Nat)) (h : ChainOK 0 specs)
    (i : Nat) (hnone : ∀ sd ∈ withDst 0 specs, sd.2 ≤ i → sd.2 + sd.1.2 ≤ i)
    (hash : Nat) :
    ((Permutation.build d (specMasks specs)).apply hash).testBit i = false := by
  rw [← Bool.not_eq_true, testBit_apply_build d specs h]
  rintro ⟨sd, hsd, h1, h2, _⟩
  have := hnone sd hsd h1
  omega

theorem testBit_reverse_at (d : Nat) (specs : List (Nat × Nat)) (h : ChainOK 0 specs)
    (hpw : List.Pairwise specDisj specs)
    (sd : (Nat × Nat) × Nat) (hsd : sd ∈ withDst 0 specs) (j : Nat)
    (h1 : sd.1.1 ≤ j) (h2 : j < sd.1.1 + sd.1.2) (hash : Nat) :
    ((Permutation.build d (specMasks specs)).reverse hash).testBit j
      = hash.testBit (sd.2 + (j - sd.1.1)) := by
  by_cases hb : hash.testBit (sd.2 + (j - sd.1.1)) = true
  · rw [hb]
    exact (testBit_reverse_build d specs h hash j).2 ⟨sd, hsd, h1, h2, hb⟩
  · rw [Bool.not_eq_true] at hb
    rw [hb, ← Bool.not_eq_true, testBit_reverse_build d specs h]
    rintro ⟨sd', hsd', h1', h2', hb'⟩
    have heq := withDst_src_unique specs 0 hpw sd' hsd' sd hsd j h1' h2' h1 h2
    rw [heq] at hb'
    rw [hb'] at hb
    exact Bool.noConfusion hb

theorem reverse_apply_build (d : Nat) (specs : List (Nat × Nat))
    (hp : SpecsPartition specs) (hash : Nat) (hh : hash < 2 ^ 64) :
    (Permutation.build d (specMasks specs)).reverse
      ((Permutation.build d (specMasks specs)).apply hash) = hash := by
  have hok := hp.chainOK
  apply Nat.eq_of_testBit_eq
  intro j
  by_cases hj : j < 64
  · obtain ⟨sd, hsd, h1, h2⟩ := withDst_src_cover hp j hj
    rw [testBit_reverse_at d specs hok hp.2.2.1 sd hsd j h1 h2]
    have hb := withDst_mem_bounds specs 0 hok sd hsd
    rw [testBit_apply_at d specs hok sd hsd (sd.2 + (j - sd.1.1)) (by omega) (by omega)]
    congr 1
    omega
  · have hle : (2 : Nat) ^ 64 ≤ 2 ^ j := Nat.pow_le_pow_right (by norm_num) (by omega)
    rw [Nat.testBit_lt_two_pow (by
        have := reverse_build_lt d specs hok
          ((Permutation.build d (specMasks specs)).apply hash)
        omega),
      Nat.testBit_lt_two_pow (by omega)]

theorem apply_reverse_build (d : Nat) (specs : List (Nat × Nat))
    (hp : SpecsPartition specs) (hash : Nat) (hh : hash < 2 ^ 64) :
    (Permutation.build d (specMasks specs)).apply
      ((Permutation.build d (specMasks specs)).reverse hash) = hash := by
  have hok := hp.chainOK
  apply Nat.eq_of_testBit_eq
  intro i
  by_cases hi : i < 64
  · obtain ⟨sd, hsd, h1, h2⟩ := withDst_dst_cover hp i hi
    rw [testBit_apply_at d specs hok sd hsd i h1 h2]
    have hb := withDst_mem_bounds specs 0 hok sd hsd
    rw [testBit_reverse_at d specs hok hp.2.2.1 sd hsd (sd.1.1 + (i - sd.2))
      (by omega) (by omega)]
    congr 1
    omega
  · have hle : (2 : Nat) ^ 64 ≤ 2 ^ i := Nat.pow_le_pow_right (by norm_num) (by omega)
    rw [Nat.testBit_lt_two_pow (by
        have := apply_build_lt d specs hok
          ((Permutation.build d (specMasks specs)).reverse hash)
        omega),
      Nat.testBit_lt_two_pow (by omega)]

theorem apply_build_xor (d : Nat) (specs : List (Nat × Nat)) (h : ChainOK 0 specs)
    (x y : Nat) :
    (Permutation.build d (specMasks specs)).apply (x ^^^ y)
      = (Permutation.build d (specMasks specs)).apply x
          ^^^ (Permutation.build d (specMasks specs)).apply y := by
  apply Nat.eq_of_testBit_eq
  intro i
  rw [Nat.testBit_xor]
  by_cases hcov : ∃ sd ∈ withDst 0 specs, sd.2 ≤ i ∧ i < sd.2 + sd.1.2
  · obtain ⟨sd, hsd, h1, h2⟩ := hcov
    rw [testBit_apply_at d specs h sd hsd i h1 h2,
      testBit_apply_at d specs h sd hsd i h1 h2,
      testBit_apply_at d specs h sd hsd i h1 h2, Nat.testBit_xor]
  · push_neg at hcov
    rw [testBit_apply_none d specs h i hcov, testBit_apply_none d specs h i hcov,
      testBit_apply_none d specs h i hcov]
    rfl

theorem find?_eq_some_of_unique {α : Type} (p : α → Bool) (l : List α) (a : α)
    (ha : a ∈ l) (hpa : p a = true) (huniq : ∀ b ∈ l, p b = true → b = a) :
    l.find? p = some a := by
  induction l with
  | nil => cases ha
  | cons x t ih =>
      by_cases hx : p x = true
      · rw [List.find?_cons_of_pos _ hx]
        rw [huniq x (List.mem_cons_self x t) hx]
      · rw [List.find?_cons_of_neg _ (by simp [hx])]
        rcases List.mem_cons.mp ha with rfl | ha'
        · exact absurd hpa hx
        · exact ih ha' (fun b hb hpb => huniq b (List.mem_cons_of_mem _ hb) hpb)

theorem srcOfDst_at (specs : List (Nat × Nat)) (h : ChainOK 0 specs)
    (sd : (Nat × Nat) × Nat) (hsd : sd ∈ withDst 0 specs) (i : Nat)
    (h1 : sd.2 ≤ i) (h2 : i < sd.2 + sd.1.2) :
    srcOfDst (withDst 0 specs) i = sd.1.1 + (i - sd.2) := by
  rw [srcOfDst, find?_eq_some_of_unique _ _ sd hsd
    (by simp only [decide_eq_true_eq]; exact ⟨h1, h2⟩)
    (fun b hb hpb => by
      simp only [decide_eq_true_eq] at hpb
      exact withDst_dst_unique specs 0 h b hb sd hsd i hpb.1 hpb.2 h1 h2)]

theorem popcount_apply_build (d : Nat) (specs : List (Nat × Nat))
    (hp : SpecsPartition specs) (hash : Nat) (hh : hash < 2 ^ 64) :
    popcount ((Permutation.build d (specMasks specs)).apply hash) = popcount hash := by
  have hok := hp.chainOK
  rw [popcount_eq_card 64 _ (apply_build_lt d specs hok hash),
    popcount_eq_card 64 hash hh]
  apply Finset.card_bij (fun i _ => srcOfDst (withDst 0 specs) i)
  · intro a ha
    obtain ⟨har, hab⟩ := Finset.mem_filter.mp ha
    obtain ⟨sd, hsd, h1, h2, hb⟩ := (testBit_apply_build d specs hok hash a).1 hab
    rw [srcOfDst_at specs hok sd hsd a h1 h2]
    have hbnd := withDst_mem_bounds specs 0 hok sd hsd
    exact Finset.mem_filter.mpr ⟨Finset.mem_range.mpr (by omega), hb⟩
  · intro a1 ha1 a2 ha2 heq
    obtain ⟨har1, hab1⟩ := Finset.mem_filter.mp ha1
    obtain ⟨har2, hab2⟩ := Finset.mem_filter.mp ha2
    obtain ⟨sd1, hsd1, h11, h12, hb1⟩ := (testBit_apply_build d specs hok hash a1).1 hab1
    obtain ⟨sd2, hsd2, h21, h22, hb2⟩ := (testBit_apply_build d specs hok hash a2).1 hab2
    rw [srcOfDst_at specs hok sd1 hsd1 a1 h11 h12,
      srcOfDst_at specs hok sd2 hsd2 a2 h21 h22] at heq
    have hsame := withDst_src_unique specs 0 hp.2.2.1 sd1 hsd1 sd2 hsd2
      (sd1.1.1 + (a1 - sd1.2)) (by omega) (by omega) (by omega) (by omega)
    rw [hsame] at heq h11 h12
    omega
  · intro b hb
    obtain ⟨hbr, hbb⟩ := Finset.mem_filter.mp hb
    have hblt := Finset.mem_range.mp hbr
    obtain ⟨sd, hsd, h1, h2⟩ := withDst_src_cover hp b hblt
    have hbnd := withDst_mem_bounds specs 0 hok sd hsd
    refine ⟨sd.2 + (b - sd.1.1), Finset.mem_filter.mpr ⟨Finset.mem_range.mpr (by omega), ?_⟩, ?_⟩
    · rw [testBit_apply_at d specs hok sd hsd (sd.2 + (b - sd.1.1)) (by omega) (by omega)]
      have harg : sd.1.1 + (sd.2 + (b - sd.1.1) - sd.2) = b := by omega
      rw [harg]
      exact hbb
    · rw [srcOfDst_at specs hok sd hsd (sd.2 + (b - sd.1.1)) (by omega) (by omega)]
      omega

theorem num_differing_bits_apply_build (d : Nat) (specs : List (Nat × Nat))
    (hp : SpecsPartition specs) (x y : Nat) (hx : x < 2 ^ 64) (hy : y < 2 ^ 64) :
    num_differing_bits ((Permutation.build d (specMasks specs)).apply x)
        ((Permutation.build d (specMasks specs)).apply y)
      = num_differing_bits x y := by
  rw [num_differing_bits_eq_popcount, num_differing_bits_eq_popcount,
    ← apply_build_xor d specs hp.chainOK]
  exact popcount_apply_build d specs hp (x ^^^ y) (Nat.xor_lt_two_pow hx hy)

/-!
## The block partition built by `Permutation::create`

`blockMask B i` sets the bits `[i*64/B, (i+1)*64/B)`; `natSpecs B` is the
corresponding `(lo, w)` descriptor list in natural order.
-/

theorem foldl_or_range' (n : Nat) :
    ∀ (s acc : Nat),
      (List.range' s n).foldl (fun mask j => mask ||| (1 <<< j)) acc
        = acc ||| onesRun s n := by
  induction n with
  | zero =>
      intro s acc
      have h0 : onesRun s 0 = 0 := by rw [onesRun]; simp
      simp [h0]
  | succ n ih =>
      intro s acc
      rw [List.range'_succ, List.foldl_cons, ih (s + 1) (acc ||| 1 <<< s)]
      rw [Nat.lor_assoc]
      have hjoin : 1 <<< s ||| onesRun (s + 1) n = onesRun s (n + 1) := by
        apply Nat.eq_of_testBit_eq
        intro i
        rw [Nat.testBit_lor, testBit_one_shiftLeft]
        by_cases hin : s ≤ i ∧ i < s + (n + 1)
        · rw [(testBit_onesRun s (n + 1) i).2 hin]
          by_cases hsi : s = i
          · simp [hsi]
          · have : (onesRun (s + 1) n).testBit i = true :=
              (testBit_onesRun (s + 1) n i).2 (by omega)
            simp [this]
        · rw [testBit_onesRun_false s (n + 1) i (by omega),
            testBit_onesRun_false (s + 1) n i (by omega)]
          simp
          omega
      rw [hjoin]

theorem blockMask_eq_onesRun (B i : Nat) :
    blockMask B i = onesRun (i * 64 / B) ((i + 1) * 64 / B - i * 64 / B) := by
  rw [blockMask, BITS, foldl_or_range']
  simp

theorem blocksList_eq_specMasks (B : Nat) : blocksList B = specMasks (natSpecs B) := by
  rw [blocksList, natSpecs, specMasks, List.map_map]
  apply List.map_congr_left
  intro i _
  exact blockMask_eq_onesRun B i

theorem natSpecs_length (B : Nat) : (natSpecs B).length = B := by
  rw [natSpecs, List.length_map, List.length_range]

theorem div_step_ge_one (B a : Nat) (hB : 0 < B) (h64 : B ≤ 64) :
    a * 64 / B + 1 ≤ (a + 1) * 64 / B := by
  have h1 : (a * 64 / B + 1) * B ≤ a * 64 + 64 := by
    have := Nat.div_mul_le_self (a * 64) B
    nlinarith
  have h2 : a * 64 + 64 = (a + 1) * 64 := by ring
  rw [Nat.le_div_iff_mul_le hB]
  omega

theorem div_mono_64 (B : Nat) (a b : Nat) (hab : a ≤ b) : a * 64 / B ≤ b * 64 / B :=
  Nat.div_le_div_right (Nat.mul_le_mul_right 64 hab)

theorem natSpecs_mem_bounds (B : Nat) (hB : 0 < B) (h64 : B ≤ 64) :
    ∀ s ∈ natSpecs B, 0 < s.2 ∧ s.1 + s.2 ≤ 64 := by
  intro s hs
  rw [natSpecs] at hs
  obtain ⟨i, hi, heq⟩ := List.mem_map.mp hs
  rw [List.mem_range] at hi
  subst heq
  have hstep := div_step_ge_one B i hB h64
  have hend : (i + 1) * 64 / B ≤ 64 := by
    have h1 : (i + 1) * 64 ≤ B * 64 := Nat.mul_le_mul_right 64 (by omega)
    have h2 : (i + 1) * 64 / B ≤ B * 64 / B := Nat.div_le_div_right h1
    rw [Nat.mul_div_cancel_left 64 hB] at h2
    exact h2
  constructor
  · simp only []
    omega
  · simp only []
    omega

theorem natSpecs_sum (B : Nat) (hB : 0 < B) :
    ((natSpecs B).map Prod.snd).sum = 64 := by
  rw [natSpecs, List.map_map]
  have hmono : Monotone (fun a => a * 64 / B) :=
    monotone_nat_of_le_succ (fun a => div_mono_64 B a (a + 1) (by omega))
  have key : ∀ n, ((List.range n).map
      (fun i => (i + 1) * 64 / B - i * 64 / B)).sum = n * 64 / B - 0 := by
    intro n
    induction n with
    | zero => simp
    | succ n ihn =>
        rw [List.range_succ, List.map_append, List.sum_append, ihn]
        simp only [List.map_cons, List.map_nil, List.sum_cons, List.sum_nil]
        have h1 : 0 * 64 / B = 0 := by simp
        have h2 : n * 64 / B ≤ (n + 1) * 64 / B := hmono (by omega)
        have h3 : (0 : Nat) ≤ n * 64 / B := Nat.zero_le _
        omega

  have := key B
  rw [show (Prod.snd ∘ fun i => (i * 64 / B, (i + 1) * 64 / B - i * 64 / B))
      = fun i => (i + 1) * 64 / B - i * 64 / B from rfl]
  rw [this]
  rw [Nat.mul_comm B 64, Nat.mul_div_cancel 64 hB]

theorem natSpecs_ordered (B : Nat) (hB : 0 < B) (h64 : B ≤ 64) :
    List.Pairwise (fun s t : Nat × Nat => s.1 + s.2 ≤ t.1) (natSpecs B) := by
  rw [natSpecs]
  rw [List.pairwise_map]
  have hpw := List.pairwise_lt_range B
  apply hpw.imp_of_mem
  intro a b ha hb hab
  simp only []
  have h1 : (a + 1) * 64 / B ≤ b * 64 / B := div_mono_64 B (a + 1) b (by omega)
  have h2 : a * 64 / B ≤ (a + 1) * 64 / B := div_mono_64 B a (a + 1) (by omega)
  omega

theorem natSpecs_pairwise_disj (B : Nat) (hB : 0 < B) (h64 : B ≤ 64) :
    List.Pairwise specDisj (natSpecs B) :=
  (natSpecs_ordered B hB h64).imp (fun h => Or.inl h)

theorem natSpecs_cover (B : Nat) (hB : 0 < B) (h64 : B ≤ 64) :
    ∀ j, j < 64 → ∃ s ∈ natSpecs B, s.1 ≤ j ∧ j < s.1 + s.2 := by
  intro j hj
  set q := (j + 1) * B with hq
  have hq1 : 1 ≤ q := by
    have : 1 * 1 ≤ (j + 1) * B := Nat.mul_le_mul (by omega) hB
    omega
  obtain ⟨i, hiq⟩ : ∃ i, i = (q - 1) / 64 := ⟨(q - 1) / 64, rfl⟩
  have hdm := Nat.div_add_mod (q - 1) 64
  have hmod := Nat.mod_lt (q - 1) (show 0 < 64 by norm_num)
  have hiB : i < B := by
    have hqB : q ≤ 64 * B := by
      rw [hq]
      have : (j + 1) * B ≤ 64 * B := Nat.mul_le_mul_right B (by omega)
      omega
    omega
  refine ⟨(i * 64 / B, (i + 1) * 64 / B - i * 64 / B), ?_, ?_, ?_⟩
  · rw [natSpecs]
    exact List.mem_map_of_mem _ (List.mem_range.mpr hiB)
  · simp only []
    have hlow : i * 64 < q := by omega
    have hmul1 : (j + 1) * B = B * j + B := by ring
    have : i * 64 / B ≤ j := by
      rw [Nat.div_le_iff_le_mul_add_pred hB]
      rw [hq, hmul1] at hlow
      omega
    exact this
  · simp only []
    have hstep := div_step_ge_one B i hB h64
    have hhigh : q ≤ (i + 1) * 64 := by omega
    have hup : j + 1 ≤ (i + 1) * 64 / B := by
      rw [Nat.le_div_iff_mul_le hB]
      rw [hq] at hhigh
      omega
    omega

theorem natSpecs_partition (B : Nat) (hB : 0 < B) (h64 : B ≤ 64) :
    SpecsPartition (natSpecs B) :=
  ⟨natSpecs_mem_bounds B hB h64, natSpecs_sum B hB,
    natSpecs_pairwise_disj B hB h64, natSpecs_cover B hB h64⟩

/-!
## The combination enumeration and the structure of `Permutation::create`
-/

theorem combinations_length {α : Type} : ∀ (r : Nat) (l : List α),
    (combinations r l).length = l.length.choose r := by
  intro r l
  induction l generalizing r with
  | nil =>
      cases r with
      | zero => rfl
      | succ r => rfl
  | cons x xs ih =>
      cases r with
      | zero => rfl
      | succ r =>
          rw [combinations, List.length_append, List.length_map, ih r, ih (r + 1)]
          rw [List.length_cons, Nat.choose_succ_succ]

theorem mem_combinations_iff {α : Type} : ∀ (r : Nat) (l c : List α),
    c ∈ combinations r l ↔ (c.Sublist l ∧ c.length = r) := by
  intro r l
  induction l generalizing r with
  | nil =>
      intro c
      cases r with
      | zero =>
          simp only [combinations, List.mem_singleton]
          constructor
          · rintro rfl; exact ⟨List.Sublist.refl [], rfl⟩
          · rintro ⟨hs, hl⟩
            exact List.length_eq_zero.mp hl
      | succ r =>
          simp only [combinations, List.not_mem_nil, false_iff, not_and]
          intro hs
          have hlen := hs.length_le
          simp only [List.length_nil, Nat.le_zero] at hlen
          omega
  | cons x xs ih =>
      intro c
      cases r with
      | zero =>
          simp only [combinations, List.mem_singleton]
          constructor
          · rintro rfl; exact ⟨List.nil_sublist _, rfl⟩
          · rintro ⟨hs, hl⟩
            exact List.length_eq_zero.mp hl
      | succ r =>
          rw [combinations, List.mem_append, List.mem_map]
          constructor
          · rintro (⟨c', hc', rfl⟩ | hmem)
            · obtain ⟨hs, hl⟩ := (ih r c').mp hc'
              exact ⟨List.Sublist.cons₂ x hs, by simp [hl]⟩
            · obtain ⟨hs, hl⟩ := (ih (r + 1) c).mp hmem
              exact ⟨List.Sublist.cons x hs, hl⟩
          · rintro ⟨hs, hl⟩
            cases hs with
            | cons _ hs' => exact Or.inr ((ih (r + 1) c).mpr ⟨hs', hl⟩)
            | cons₂ _ hs' =>
                rename_i c'
                left
                exact ⟨c', (ih r c').mpr ⟨hs', by simpa using hl⟩, rfl⟩

theorem combinations_head_mem {α : Type} : ∀ (r : Nat) (l c : List α),
    c ∈ combinations (r + 1) l → ∃ y t, c = y :: t ∧ y ∈ l := by
  intro r l c hc
  obtain ⟨hs, hl⟩ := (mem_combinations_iff (r + 1) l c).mp hc
  cases c with
  | nil => simp at hl
  | cons y t => exact ⟨y, t, rfl, hs.subset (List.mem_cons_self y t)⟩

theorem combinations_pairwise_lex (l : List Nat) (hpl : List.Pairwise (· < ·) l) :
    ∀ r, List.Pairwise (List.Lex (· < ·)) (combinations r l) := by
  induction l with
  | nil =>
      intro r
      cases r with
      | zero => simp [combinations]
      | succ r => simp [combinations]
  | cons x xs ih =>
      intro r
      have hpxs := (List.pairwise_cons.mp hpl).2
      have hx := (List.pairwise_cons.mp hpl).1
      cases r with
      | zero => simp [combinations]
      | succ r =>
          rw [combinations, List.pairwise_append]
          refine ⟨?_, ih hpxs (r + 1), ?_⟩
          · exact (ih hpxs r).map _ (fun a b hab => List.Lex.cons hab)
          · rintro a ha b hb
            obtain ⟨c', hc', rfl⟩ := List.mem_map.mp ha
            obtain ⟨y, t, rfl, hy⟩ := combinations_head_mem r xs b hb
            exact List.Lex.rel (hx y hy)

theorem combinations_map (f : Nat × Nat → Nat) :
    ∀ (r : Nat) (l : List (Nat × Nat)),
      combinations r (l.map f) = (combinations r l).map (List.map f) := by
  intro r l
  induction l generalizing r with
  | nil =>
      cases r with
      | zero => rfl
      | succ r => rfl
  | cons x xs ih =>
      cases r with
      | zero => rfl
      | succ r =>
          rw [List.map_cons]
          show ((combinations r (xs.map f)).map (fun c => f x :: c)) ++ combinations (r + 1) (xs.map f)
            = ((((combinations r xs).map (fun c => x :: c)) ++ combinations (r + 1) xs).map (List.map f))
          rw [ih r, ih (r + 1), List.map_append, List.map_map, List.map_map]
          rfl

theorem filter_mem_of_sublist :
    ∀ {c l : List (Nat × Nat)}, c.Sublist l → l.Nodup →
      l.filter (fun a => decide (a ∈ c)) = c := by
  intro c l hsub
  induction hsub with
  | slnil => intro _; rfl
  | cons a hsub ih =>
      rename_i c' l'
      intro hnd
      have hnd' := List.nodup_cons.mp hnd
      have ha : a ∉ c' := fun hac => hnd'.1 (hsub.subset hac)
      rw [List.filter_cons_of_neg (by simp [ha])]
      exact ih hnd'.2
  | cons₂ a hsub ih =>
      rename_i c' l'
      intro hnd
      have hnd' := List.nodup_cons.mp hnd
      rw [List.filter_cons_of_pos (by simp)]
      have hcongr : l'.filter (fun x => decide (x ∈ a :: c'))
          = l'.filter (fun x => decide (x ∈ c')) := by
        apply List.filter_congr
        intro x hx
        have hxa : x ≠ a := fun hxa => hnd'.1 (hxa ▸ hx)
        apply decide_eq_decide.mpr
        simp [List.mem_cons, hxa]
      rw [hcongr, ih hnd'.2]

theorem sublist_filter_append_perm (l c : List (Nat × Nat))
    (hsub : c.Sublist l) (hnd : l.Nodup) :
    (c ++ l.filter (fun a => decide (a ∉ c))).Perm l := by
  have h1 := List.filter_append_perm (fun a => decide (a ∈ c)) l
  rw [filter_mem_of_sublist hsub hnd] at h1
  have h2 : (l.filter fun a => !decide (a ∈ c)) = l.filter (fun a => decide (a ∉ c)) := by
    apply List.filter_congr
    intro x _
    simp
  rw [h2] at h1
  exact h1

theorem SpecsPartition.perm {l₁ l₂ : List (Nat × Nat)} (hp : l₁.Perm l₂)
    (h : SpecsPartition l₂) : SpecsPartition l₁ := by
  obtain ⟨hb, hsum, hpw, hcov⟩ := h
  refine ⟨fun s hs => hb s (hp.mem_iff.mp hs), ?_, ?_, ?_⟩
  · rw [(hp.map Prod.snd).sum_eq]
    exact hsum
  · exact (List.Perm.pairwise_iff (fun hxy => Or.symm hxy) hp).mpr hpw
  · intro j hj
    obtain ⟨s, hs, h1, h2⟩ := hcov j hj
    exact ⟨s, hp.mem_iff.mpr hs, h1, h2⟩

theorem onesRun_lt_onesRun (lo w lo' w' : Nat) (hw : 0 < w') (hord : lo + w ≤ lo') :
    onesRun lo w < onesRun lo' w' := by
  have h1 : onesRun lo w < 2 ^ (lo + w) := by
    rw [onesRun, Nat.shiftLeft_eq, pow_add]
    have hp : 0 < 2 ^ lo := Nat.pos_pow_of_pos lo (by norm_num)
    have : 2 ^ w - 1 < 2 ^ w := by
      have : 0 < 2 ^ w := Nat.pos_pow_of_pos w (by norm_num)
      omega
    calc (2 ^ w - 1) * 2 ^ lo < 2 ^ w * 2 ^ lo := (Nat.mul_lt_mul_right hp).mpr this
      _ = 2 ^ lo * 2 ^ w := by ring
  have h2 : 2 ^ lo' ≤ onesRun lo' w' := by
    rw [onesRun, Nat.shiftLeft_eq]
    have : 1 ≤ 2 ^ w' - 1 := by
      have : 2 ≤ 2 ^ w' := by
        calc 2 = 2 ^ 1 := by norm_num
          _ ≤ 2 ^ w' := Nat.pow_le_pow_right (by norm_num) hw
      omega
    calc 2 ^ lo' = 1 * 2 ^ lo' := by ring
      _ ≤ (2 ^ w' - 1) * 2 ^ lo' :=
          Nat.mul_le_mul_right _ this
  have h3 : (2 : Nat) ^ (lo + w) ≤ 2 ^ lo' := Nat.pow_le_pow_right (by norm_num) hord
  omega

theorem blocksList_length (B : Nat) : (blocksList B).length = B := by
  rw [blocksList, List.length_map, List.length_range]

theorem blocksList_pairwise_lt (B : Nat) (hB : 0 < B) (h64 : B ≤ 64) :
    List.Pairwise (· < ·) (blocksList B) := by
  rw [blocksList_eq_specMasks, specMasks]
  rw [List.pairwise_map]
  apply (natSpecs_ordered B hB h64).imp_of_mem
  intro s t hs ht hord
  have hbt := natSpecs_mem_bounds B hB h64 t ht
  exact onesRun_lt_onesRun s.1 s.2 t.1 t.2 hbt.1 hord

theorem blocksList_nodup (B : Nat) (hB : 0 < B) (h64 : B ≤ 64) :
    (blocksList B).Nodup :=
  (blocksList_pairwise_lt B hB h64).imp (fun h => Nat.ne_of_lt h)

theorem natSpecs_nodup (B : Nat) (hB : 0 < B) (h64 : B ≤ 64) :
    (natSpecs B).Nodup := by
  apply List.Pairwise.imp_of_mem ?_ (natSpecs_ordered B hB h64)
  intro s t hs ht hord
  have hbs := natSpecs_mem_bounds B hB h64 s hs
  intro heq
  subst heq
  omega

/-- The explicit success value of `Permutation::create` for valid arguments. -/
theorem create_eq_ok (B d : Nat) (hd : d < B) (hB : B ≤ 64) :
    Permutation.create B d =
      .ok ((combinations (B - d) (blocksList B)).map (fun choice =>
        Permutation.build d
          (choice ++ (blocksList B).filter (fun block => decide (block ∉ choice))))) := by
  rw [Permutation.create, if_neg (by omega), if_neg (by omega)]
  have hchoose : Permutation.choose (blocksList B) (B - d)
      = .ok (combinations (B - d) (blocksList B)) := by
    rw [Permutation.choose, if_neg (by rw [blocksList_length]; omega)]
  simp only [hchoose]
  rfl

/-- Mask-level choices correspond to descriptor-level choices. -/
theorem choice_append_filter_eq (B : Nat) (hB : 0 < B) (h64 : B ≤ 64)
    (sc : List (Nat × Nat)) (hsub : sc.Sublist (natSpecs B)) :
    specMasks sc ++ (blocksList B).filter (fun b => decide (b ∉ specMasks sc))
      = specMasks (sc ++ (natSpecs B).filter (fun s => decide (s ∉ sc))) := by
  rw [specMasks, specMasks, List.map_append]
  congr 1
  rw [blocksList_eq_specMasks, specMasks, List.filter_map]
  congr 1
  apply List.filter_congr
  intro s hs
  apply decide_eq_decide.mpr
  constructor
  · intro hnotin hmem
    exact hnotin (List.mem_map_of_mem _ hmem)
  · intro hnotin hmem
    apply hnotin
    have hmem' : onesRun s.1 s.2 ∈ (natSpecs B).map (fun t => onesRun t.1 t.2) :=
      List.mem_map_of_mem _ hs
    have hnd : ((natSpecs B).map (fun t => onesRun t.1 t.2)).Nodup := by
      have h := blocksList_nodup B hB h64
      rw [blocksList_eq_specMasks] at h
      exact h
    obtain ⟨t, ht, heq⟩ := List.mem_map.mp hmem
    have hinj := List.inj_on_of_nodup_map hnd
    have hts : t = s := hinj (hsub.subset ht) hs heq
    rw [← hts]
    exact ht

/-- Every permutation produced by `create` is the constructor applied to a
mask list that partitions the 64 bit positions, with the chosen descriptors
in front. -/
theorem create_mem_decomp (B d : Nat) (hd : d < B) (hB : B ≤ 64) (p : Permutation)
    (ps : List Permutation) (hps : Permutation.create B d = .ok ps) (hp : p ∈ ps) :
    ∃ sc : List (Nat × Nat), sc.Sublist (natSpecs B) ∧ sc.length = B - d ∧
      p = Permutation.build d
        (specMasks (sc ++ (natSpecs B).filter (fun s => decide (s ∉ sc)))) := by
  have hB0 : 0 < B := by omega
  rw [create_eq_ok B d hd hB] at hps
  have hps' : ps = (combinations (B - d) (blocksList B)).map (fun choice =>
      Permutation.build d
        (choice ++ (blocksList B).filter (fun block => decide (block ∉ choice)))) := by
    cases hps
    rfl
  rw [hps'] at hp
  obtain ⟨choice, hchoice, heq⟩ := List.mem_map.mp hp
  simp only [blocksList_eq_specMasks, specMasks, combinations_map] at hchoice
  obtain ⟨sc, hsc, hmapeq⟩ := List.mem_map.mp hchoice
  obtain ⟨hsub, hlen⟩ := (mem_combinations_iff (B - d) (natSpecs B) sc).mp hsc
  refine ⟨sc, hsub, hlen, ?_⟩
  rw [← heq]
  have hch : choice = specMasks sc := by rw [← hmapeq, specMasks]
  rw [hch, choice_append_filter_eq B hB0 hB sc hsub]

/-- Conversely, every size-`B-d` choice of block descriptors yields a member
of the created family. -/
theorem create_mem_of_choice (B d : Nat) (hd : d < B) (hB : B ≤ 64)
    (sc : List (Nat × Nat)) (hsub : sc.Sublist (natSpecs B)) (hlen : sc.length = B - d)
    (ps : List Permutation) (hps : Permutation.create B d = .ok ps) :
    Permutation.build d
        (specMasks (sc ++ (natSpecs B).filter (fun s => decide (s ∉ sc)))) ∈ ps := by
  have hB0 : 0 < B := by omega
  rw [create_eq_ok B d hd hB] at hps
  have hps' : ps = (combinations (B - d) (blocksList B)).map (fun choice =>
      Permutation.build d
        (choice ++ (blocksList B).filter (fun block => decide (block ∉ choice)))) := by
    cases hps
    rfl
  rw [hps']
  apply List.mem_map.mpr
  refine ⟨specMasks sc, ?_, ?_⟩
  · rw [blocksList_eq_specMasks, specMasks, combinations_map]
    exact List.mem_map_of_mem _
      ((mem_combinations_iff (B - d) (natSpecs B) sc).mpr ⟨hsub, hlen⟩)
  · rw [choice_append_filter_eq B hB0 hB sc hsub]

/-- The descriptor list underlying a family member is a permutation of the
natural partition, hence itself a partition. -/
theorem choice_specs_partition (B : Nat) (hB : 0 < B) (h64 : B ≤ 64)
    (sc : List (Nat × Nat)) (hsub : sc.Sublist (natSpecs B)) :
    SpecsPartition (sc ++ (natSpecs B).filter (fun s => decide (s ∉ sc))) :=
  SpecsPartition.perm
    (sublist_filter_append_perm (natSpecs B) sc hsub (natSpecs_nodup B hB h64))
    (natSpecs_partition B hB h64)

theorem popcount_shiftLeft (x : Nat) : ∀ lo, popcount (x <<< lo) = popcount x := by
  intro lo
  induction lo with
  | zero => simp [Nat.shiftLeft_eq]
  | succ lo ih =>
      have h : x <<< (lo + 1) = 2 * (x <<< lo) := by
        rw [Nat.shiftLeft_eq, Nat.shiftLeft_eq, pow_succ]
        ring
      rw [h, popcount_two_mul, ih]

theorem popcount_two_pow_sub_one : ∀ w : Nat, popcount (2 ^ w - 1) = w := by
  intro w
  induction w with
  | zero => simp [popcount_zero]
  | succ w ih =>
      have h : 2 ^ (w + 1) - 1 = 2 * (2 ^ w - 1) + 1 := by
        have : (1 : Nat) ≤ 2 ^ w := Nat.one_le_two_pow
        have : (2 : Nat) ^ (w + 1) = 2 * 2 ^ w := by ring
        omega
      rw [h, popcount_two_mul_add_one, ih]
      omega

theorem popcount_onesRun (lo w : Nat) : popcount (onesRun lo w) = w := by
  rw [onesRun, popcount_shiftLeft, popcount_two_pow_sub_one]

theorem withDst_append (l₁ l₂ : List (Nat × Nat)) :
    ∀ width, withDst width (l₁ ++ l₂)
      = withDst width l₁ ++ withDst (width + (l₁.map Prod.snd).sum) l₂ := by
  induction l₁ with
  | nil => intro width; simp [withDst]
  | cons s rest ih =>
      intro width
      have harith : width + s.2 + (rest.map Prod.snd).sum
          = width + (s.2 + (rest.map Prod.snd).sum) := by omega
      calc withDst width ((s :: rest) ++ l₂)
          = (s, 64 - (width + s.2)) :: withDst (width + s.2) (rest ++ l₂) := rfl
        _ = (s, 64 - (width + s.2))
              :: (withDst (width + s.2) rest
                    ++ withDst (width + s.2 + (rest.map Prod.snd).sum) l₂) := by
              rw [ih (width + s.2)]
        _ = withDst width (s :: rest) ++ withDst (width + ((s :: rest).map Prod.snd).sum) l₂ := by
              simp only [withDst, List.map_cons, List.sum_cons, List.cons_append]
              rw [harith]

theorem apply_build_single (d : Nat) (specs : List (Nat × Nat)) (hp : SpecsPartition specs)
    (sd : (Nat × Nat) × Nat) (hsd : sd ∈ withDst 0 specs) (i : Nat)
    (h1 : sd.1.1 ≤ i) (h2 : i < sd.1.1 + sd.1.2) :
    (Permutation.build d (specMasks specs)).apply (1 <<< i)
      = 1 <<< (sd.2 + (i - sd.1.1)) := by
  have hok := hp.chainOK
  have hbnd := withDst_mem_bounds specs 0 hok sd hsd
  apply Nat.eq_of_testBit_eq
  intro t
  by_cases hcov : ∃ sd' ∈ withDst 0 specs, sd'.2 ≤ t ∧ t < sd'.2 + sd'.1.2
  · obtain ⟨sd', hsd', h1', h2'⟩ := hcov
    rw [testBit_apply_at d specs hok sd' hsd' t h1' h2', testBit_one_shiftLeft,
      testBit_one_shiftLeft]
    have hbnd' := withDst_mem_bounds specs 0 hok sd' hsd'
    apply decide_eq_decide.mpr
    constructor
    · intro heq
      have hsame : sd' = sd := withDst_src_unique specs 0 hp.2.2.1 sd' hsd' sd hsd i
        (by omega) (by omega) h1 h2
      subst hsame
      omega
    · intro heq
      have hsame : sd' = sd := withDst_dst_unique specs 0 hok sd' hsd' sd hsd t
        h1' h2' (by omega) (by omega)
      subst hsame
      omega
  · push_neg at hcov
    rw [testBit_apply_none d specs hok t hcov, testBit_one_shiftLeft]
    have hne : sd.2 + (i - sd.1.1) ≠ t := by
      intro heq
      have := hcov sd hsd
      omega
    simp [hne]

/-!
## The search `Simhash::find_all`

For each permutation the hashes are permuted, sorted, and swept by
maximal runs of equal `search_mask` prefix; all pairs inside a run that
pass the popcount test are inserted, canonicalized as `(min, max)` of
the unpermuted values.  The progress bar, threads and mutex of the C++
code do not affect the accumulated set and are not modelled.
-/

theorem length_dropWhile_lt_cons (p : Nat → Bool) (x : Nat) (xs : List Nat) :
    (xs.dropWhile p).length < (x :: xs).length := by
  have h := List.Sublist.length_le (List.dropWhile_sublist (l := xs) p)
  simp only [List.length_cons]
  omega

/-!
## Soundness and completeness of `find_all`
-/

theorem find_all_eq_ok (S : List Nat) (B d : Nat) (ps : List Permutation)
    (hps : Permutation.create B d = .ok ps) :
    find_all S B d = .ok (ps.foldl (fun results p =>
      let copy := (S.map p.apply).mergeSort (fun a b => decide (a ≤ b))
      (runsBy p.search_mask copy).foldl (fun res run =>
        (pairsOf run).foldl (fun res2 ab =>
          if num_differing_bits ab.1 ab.2 ≤ d then
            insert (min (p.reverse ab.1) (p.reverse ab.2),
              max (p.reverse ab.1) (p.reverse ab.2)) res2
          else res2) res) results) ∅) := by
  rw [find_all, hps]
  rfl

theorem mem_foldl_of_step {β : Type} (P : Nat × Nat → Prop)
    (f : Finset (Nat × Nat) → β → Finset (Nat × Nat)) :
    ∀ (l : List β), (∀ acc b, b ∈ l → ∀ x, x ∈ f acc b → x ∈ acc ∨ P x) →
      ∀ acc x, x ∈ l.foldl f acc → x ∈ acc ∨ P x := by
  intro l
  induction l with
  | nil => intro _ acc x hx; exact Or.inl hx
  | cons b t ih =>
      intro hf acc x hx
      rcases ih (fun acc b hb => hf acc b (List.mem_cons_of_mem _ hb)) (f acc b) x hx with
        h | h
      · exact hf acc b (List.mem_cons_self b t) x h
      · exact Or.inr h

theorem pairsOf_mem : ∀ (l : List Nat) (ab : Nat × Nat), ab ∈ pairsOf l →
    ab.1 ∈ l ∧ ab.2 ∈ l := by
  intro l
  induction l with
  | nil => intro ab hab; simp [pairsOf] at hab
  | cons x xs ih =>
      intro ab hab
      rw [pairsOf, List.mem_append] at hab
      rcases hab with hab | hab
      · obtain ⟨y, hy, heq⟩ := List.mem_map.mp hab
        rw [← heq]
        exact ⟨List.mem_cons_self x xs, List.mem_cons_of_mem _ hy⟩
      · have := ih ab hab
        exact ⟨List.mem_cons_of_mem _ this.1, List.mem_cons_of_mem _ this.2⟩

theorem runsBy_mem (mask : Nat) : ∀ (l : List Nat) (run : List Nat) (x : Nat),
    run ∈ runsBy mask l → x ∈ run → x ∈ l := by
  intro l
  induction l using runsBy.induct mask with
  | case1 => intro run x hrun; simp [runsBy] at hrun
  | case2 y ys ih =>
      intro run x hrun hx
      rw [runsBy] at hrun
      rcases List.mem_cons.mp hrun with hrun | hrun
      · subst hrun
        rcases List.mem_cons.mp hx with hx | hx
        · exact hx ▸ List.mem_cons_self y ys
        · exact List.mem_cons_of_mem _ ((List.takeWhile_sublist _).subset hx)
      · have := ih run x hrun hx
        exact List.mem_cons_of_mem _ ((List.dropWhile_sublist _).subset this)

theorem mergeSort_mem_map (S : List Nat) (f : Nat → Nat) (y : Nat) :
    y ∈ (S.map f).mergeSort (fun a b => decide (a ≤ b)) ↔ ∃ a ∈ S, f a = y := by
  rw [(List.mergeSort_perm (S.map f) _).mem_iff, List.mem_map]

theorem xor_land_eq_zero_iff (x y m : Nat) :
    (x ^^^ y) &&& m = 0 ↔ x &&& m = y &&& m := by
  constructor
  · intro h
    apply Nat.eq_of_testBit_eq
    intro i
    have hbit : ((x ^^^ y) &&& m).testBit i = false := by rw [h]; simp
    rw [Nat.testBit_land, Nat.testBit_xor] at hbit
    rw [Nat.testBit_land, Nat.testBit_land]
    cases hm : m.testBit i
    · simp
    · rw [hm] at hbit
      simp only [Bool.and_true] at hbit
      have : x.testBit i = y.testBit i := by
        cases hx : x.testBit i <;> cases hy : y.testBit i <;>
          rw [hx, hy] at hbit <;> simp_all
      rw [this]
  · intro h
    apply Nat.eq_of_testBit_eq
    intro i
    rw [Nat.testBit_land, Nat.testBit_xor]
    have := congrArg (fun z => z.testBit i) h
    simp only [Nat.testBit_land] at this
    cases hm : m.testBit i
    · simp
    · rw [hm] at this
      simp only [Bool.and_true] at this
      rw [this]
      simp

theorem popcount_piece_card (z : Nat) (hz : z < 2 ^ 64) (lo w : Nat) :
    popcount (z &&& onesRun lo w)
      = ((Finset.range 64).filter
          (fun i => z.testBit i = true ∧ lo ≤ i ∧ i < lo + w)).card := by
  have hle : z &&& onesRun lo w ≤ z := Nat.and_le_left
  rw [popcount_eq_card 64 _ (by omega)]
  congr 1
  apply Finset.filter_congr
  intro i _
  rw [Nat.testBit_land]
  cases hzb : z.testBit i
  · simp
  · by_cases hin : lo ≤ i ∧ i < lo + w
    · rw [(testBit_onesRun lo w i).2 hin]
      simp [hin]
    · rw [testBit_onesRun_false lo w i (by omega)]
      simp
      omega

theorem popcount_partition_sum (z : Nat) (hz : z < 2 ^ 64) :
    ∀ specs : List (Nat × Nat), SpecsPartition specs →
      (specs.map (fun s => popcount (z &&& onesRun s.1 s.2))).sum = popcount z := by
  have key : ∀ specs : List (Nat × Nat), List.Pairwise specDisj specs →
      (specs.map (fun s => popcount (z &&& onesRun s.1 s.2))).sum
        = ((Finset.range 64).filter
            (fun i => z.testBit i = true ∧ ∃ s ∈ specs, s.1 ≤ i ∧ i < s.1 + s.2)).card := by
    intro specs
    induction specs with
    | nil =>
        intro _
        simp
    | cons s rest ih =>
        intro hpw
        obtain ⟨hhead, htail⟩ := List.pairwise_cons.mp hpw
        rw [List.map_cons, List.sum_cons, ih htail, popcount_piece_card z hz s.1 s.2]
        have hsplit : (Finset.range 64).filter
            (fun i => z.testBit i = true ∧ ∃ t ∈ (s :: rest), t.1 ≤ i ∧ i < t.1 + t.2)
            = ((Finset.range 64).filter (fun i => z.testBit i = true ∧ s.1 ≤ i ∧ i < s.1 + s.2))
              ∪ ((Finset.range 64).filter
                  (fun i => z.testBit i = true ∧ ∃ t ∈ rest, t.1 ≤ i ∧ i < t.1 + t.2)) := by
          rw [← Finset.filter_or]
          apply Finset.filter_congr
          intro i _
          simp only [List.mem_cons, eq_iff_iff]
          constructor
          · rintro ⟨hb, t, (rfl | ht), h1, h2⟩
            · exact Or.inl ⟨hb, h1, h2⟩
            · exact Or.inr ⟨hb, t, ht, h1, h2⟩
          · rintro (⟨hb, h1, h2⟩ | ⟨hb, t, ht, h1, h2⟩)
            · exact ⟨hb, s, Or.inl rfl, h1, h2⟩
            · exact ⟨hb, t, Or.inr ht, h1, h2⟩
        rw [hsplit, Finset.card_union_of_disjoint]
        rw [Finset.disjoint_left]
        intro i hi1 hi2
        obtain ⟨_, ⟨hb1, h11, h12⟩⟩ := Finset.mem_filter.mp hi1
        obtain ⟨_, ⟨hb2, t, ht, h21, h22⟩⟩ := Finset.mem_filter.mp hi2
        have hdisj := hhead t ht
        rcases hdisj with hdisj | hdisj <;> omega
  intro specs hp
  rw [key specs hp.2.2.1]
  rw [popcount_eq_card 64 z hz]
  congr 1
  apply Finset.filter_congr
  intro i hi
  have hcov := hp.2.2.2 i (Finset.mem_range.mp hi)
  constructor
  · rintro ⟨hb, _⟩; exact hb
  · intro hb
    exact ⟨hb, hcov⟩

theorem length_filter_le_sum (g : (Nat × Nat) → Nat) (p : (Nat × Nat) → Bool)
    (hg : ∀ s, p s = true → 1 ≤ g s) :
    ∀ l : List (Nat × Nat), (l.filter p).length ≤ (l.map g).sum := by
  intro l
  induction l with
  | nil => simp
  | cons s rest ih =>
      rw [List.filter_cons, List.map_cons, List.sum_cons]
      by_cases hp : p s = true
      · rw [if_pos hp]
        have := hg s hp
        simp only [List.length_cons]
        omega
      · rw [if_neg hp]
        omega

theorem land_topmask_eq (W : Nat) (hW : W ≤ 64) (a : Nat) (ha : a < 2 ^ 64) :
    a &&& onesRun (64 - W) W = (a >>> (64 - W)) <<< (64 - W) := by
  rw [land_onesRun]
  have hsmall : a >>> (64 - W) < 2 ^ W := by
    rw [Nat.shiftRight_eq_div_pow]
    rw [Nat.div_lt_iff_lt_mul (Nat.pos_pow_of_pos _ (by norm_num))]
    calc a < 2 ^ 64 := ha
      _ = 2 ^ W * 2 ^ (64 - W) := by rw [← pow_add]; congr 1; omega
  rw [Nat.and_pow_two_sub_one_eq_mod, Nat.mod_eq_of_lt hsmall]

theorem land_topmask_mono (W : Nat) (hW : W ≤ 64) (a b : Nat) (ha : a < 2 ^ 64)
    (hb : b < 2 ^ 64) (hab : a ≤ b) :
    a &&& onesRun (64 - W) W ≤ b &&& onesRun (64 - W) W := by
  rw [land_topmask_eq W hW a ha, land_topmask_eq W hW b hb,
    Nat.shiftLeft_eq, Nat.shiftLeft_eq, Nat.shiftRight_eq_div_pow,
    Nat.shiftRight_eq_div_pow]
  exact Nat.mul_le_mul_right _ (Nat.div_le_div_right hab)

theorem mergeSort_sorted (l : List Nat) :
    List.Sorted (· ≤ ·) (l.mergeSort (fun a b => decide (a ≤ b))) := by
  have h := List.sorted_mergeSort
    (fun (a b c : Nat) hab hbc => by
      have hab' : a ≤ b := of_decide_eq_true hab
      have hbc' : b ≤ c := of_decide_eq_true hbc
      exact decide_eq_true (by omega))
    (fun (a b : Nat) => by
      rcases Nat.le_total a b with h | h
      · exact Bool.or_eq_true_iff.mpr (Or.inl (decide_eq_true h))
      · exact Bool.or_eq_true_iff.mpr (Or.inr (decide_eq_true h))) l
  exact h.imp (fun hab => of_decide_eq_true hab)

theorem mem_takeWhile_of_class (m : Nat) (l : List Nat) (y : Nat)
    (hsorted : List.Sorted (· ≤ ·) (y :: l))
    (hmono : ∀ a ∈ y :: l, ∀ b ∈ y :: l, a ≤ b → a &&& m ≤ b &&& m)
    (z : Nat) (hz : z ∈ l) (hcls : z &&& m = y &&& m) :
    z ∈ l.takeWhile (fun t => decide (t &&& m = y &&& m)) := by
  have hsplit := List.takeWhile_append_dropWhile
    (fun t => decide (t &&& m = y &&& m)) l
  rcases List.mem_append.mp (by rw [hsplit]; exact hz) with h | h
  · exact h
  · exfalso
    obtain ⟨e, t, he⟩ : ∃ e t, l.dropWhile (fun t => decide (t &&& m = y &&& m)) = e :: t := by
      cases hdw : l.dropWhile (fun t => decide (t &&& m = y &&& m)) with
      | nil => rw [hdw] at h; cases h
      | cons e t => exact ⟨e, t, rfl⟩
    have hne : ¬(e &&& m = y &&& m) := by
      have := List.head?_dropWhile_not (fun t => decide (t &&& m = y &&& m)) l
      rw [he] at this
      simp at this
      exact this
    have hemem : e ∈ l := (List.dropWhile_sublist _).subset (by rw [he]; exact List.mem_cons_self e t)
    have hzmem : z ∈ e :: t := by rw [← he]; exact h
    have hsorted_drop : List.Sorted (· ≤ ·) (e :: t) := by
      rw [← he]
      exact List.Pairwise.sublist (List.dropWhile_sublist _) hsorted.of_cons
    have hez : e ≤ z := by
      rcases List.mem_cons.mp hzmem with rfl | hzt
      · exact Nat.le_refl _
      · exact (List.sorted_cons.mp hsorted_drop).1 z hzt
    have hye : y ≤ e := (List.sorted_cons.mp hsorted).1 e hemem
    have h1 : y &&& m ≤ e &&& m :=
      hmono y (List.mem_cons_self y l) e (List.mem_cons_of_mem _ hemem) hye
    have h2 : e &&& m ≤ z &&& m :=
      hmono e (List.mem_cons_of_mem _ hemem) z (List.mem_cons_of_mem _ hz) hez
    omega

theorem runsBy_same_run (m : Nat) :
    ∀ l : List Nat, List.Sorted (· ≤ ·) l →
      (∀ a ∈ l, ∀ b ∈ l, a ≤ b → a &&& m ≤ b &&& m) →
      ∀ a b, a ∈ l → b ∈ l → a &&& m = b &&& m →
        ∃ run ∈ runsBy m l, a ∈ run ∧ b ∈ run := by
  intro l
  induction l using runsBy.induct m with
  | case1 =>
      intro _ _ a b ha _ _
      cases ha
  | case2 y ys ih =>
      intro hsorted hmono a b ha hb hab
      rw [runsBy]
      by_cases hay : a &&& m = y &&& m
      · have hby : b &&& m = y &&& m := by omega
        have hmem : ∀ z, z ∈ y :: ys → z &&& m = y &&& m →
            z ∈ y :: ys.takeWhile (fun t => decide (t &&& m = y &&& m)) := by
          intro z hzmem hzcls
          rcases List.mem_cons.mp hzmem with rfl | hzys
          · exact List.mem_cons_self _ _
          · exact List.mem_cons_of_mem _
              (mem_takeWhile_of_class m ys y hsorted hmono z hzys hzcls)
        exact ⟨_, List.mem_cons_self _ _, hmem a ha hay, hmem b hb hby⟩
      · have hbny : ¬(b &&& m = y &&& m) := by omega
        have hmemdrop : ∀ z, z ∈ y :: ys → ¬(z &&& m = y &&& m) →
            z ∈ ys.dropWhile (fun t => decide (t &&& m = y &&& m)) := by
          intro z hzmem hzcls
          rcases List.mem_cons.mp hzmem with rfl | hzys
          · omega
          · have hsplit := List.takeWhile_append_dropWhile
              (fun t => decide (t &&& m = y &&& m)) ys
            rcases List.mem_append.mp (by rw [hsplit]; exact hzys) with h | h
            · exfalso
              have := List.mem_takeWhile_imp h
              simp at this
              omega
            · exact h
        have hsub : (ys.dropWhile (fun t => decide (t &&& m = y &&& m))).Sublist (y :: ys) :=
          ((List.dropWhile_sublist _).trans (List.sublist_cons_self y ys))
        obtain ⟨run, hrun, har, hbr⟩ := ih
          (List.Pairwise.sublist hsub hsorted)
          (fun p hp q hq hpq => hmono p (hsub.subset hp) q (hsub.subset hq) hpq)
          a b (hmemdrop a ha hay) (hmemdrop b hb hbny) hab
        exact ⟨run, List.mem_cons_of_mem _ hrun, har, hbr⟩

theorem pairsOf_complete : ∀ (l : List Nat) (a b : Nat), a ∈ l → b ∈ l → a ≠ b →
    (a, b) ∈ pairsOf l ∨ (b, a) ∈ pairsOf l := by
  intro l
  induction l with
  | nil => intro a b ha; cases ha
  | cons x xs ih =>
      intro a b ha hb hne
      rw [pairsOf]
      rcases List.mem_cons.mp ha with rfl | ha' <;> rcases List.mem_cons.mp hb with h | hb'
      · omega
      · left
        rw [List.mem_append]
        left
        exact List.mem_map.mpr ⟨b, hb', rfl⟩
      · subst h
        right
        rw [List.mem_append]
        left
        exact List.mem_map.mpr ⟨a, ha', rfl⟩
      · rcases ih a b ha' hb' hne with h | h
        · left; rw [List.mem_append]; exact Or.inr h
        · right; rw [List.mem_append]; exact Or.inr h

theorem foldl_subset {β : Type} (f : Finset (Nat × Nat) → β → Finset (Nat × Nat))
    (hf : ∀ acc b, acc ⊆ f acc b) :
    ∀ (l : List β) (acc : Finset (Nat × Nat)), acc ⊆ l.foldl f acc := by
  intro l
  induction l with
  | nil => intro acc; exact Finset.Subset.refl acc
  | cons b t ih =>
      intro acc
      exact (hf acc b).trans (ih (f acc b))

theorem mem_foldl_of_mem_step {β : Type} (f : Finset (Nat × Nat) → β → Finset (Nat × Nat))
    (hmono : ∀ acc b, acc ⊆ f acc b) (b₀ : β) (x : Nat × Nat)
    (hx : ∀ acc, x ∈ f acc b₀) :
    ∀ (l : List β), b₀ ∈ l → ∀ acc, x ∈ l.foldl f acc := by
  intro l
  induction l with
  | nil => intro hb; cases hb
  | cons c t ih =>
      intro hb acc
      rcases List.mem_cons.mp hb with rfl | hb'
      · exact foldl_subset f hmono t (f acc b₀) (hx acc)
      · exact ih hb' (f acc c)

theorem num_differing_bits_comm (a b : Nat) :
    num_differing_bits a b = num_differing_bits b a := by
  rw [num_differing_bits, num_differing_bits, Nat.xor_comm]

theorem ChainOK_append_right : ∀ (l₁ l₂ : List (Nat × Nat)) (width : Nat),
    ChainOK width (l₁ ++ l₂) → ChainOK (width + (l₁.map Prod.snd).sum) l₂ := by
  intro l₁
  induction l₁ with
  | nil => intro l₂ width h; simpa using h
  | cons s rest ih =>
      intro l₂ width h
      obtain ⟨_, _, _, h'⟩ := h
      have hr := ih l₂ (width + s.2) h'
      have harith : width + ((s :: rest).map Prod.snd).sum
          = width + s.2 + (rest.map Prod.snd).sum := by
        rw [List.map_cons, List.sum_cons]
        omega
      rw [harith]
      exact hr

theorem find_all_complete (B d : Nat) (hd : 0 < d) (hdB : d < B) (hB : B ≤ 64)
    (S : List Nat) (hS : ∀ h ∈ S, h < 2 ^ 64)
    (x y : Nat) (hx : x ∈ S) (hy : y ∈ S) (hxy : x ≠ y)
    (hdist : popcount (x ^^^ y) ≤ d) :
    ∃ R, find_all S B d = .ok R ∧ (min x y, max x y) ∈ R := by
  have hB0 : 0 < B := by omega
  have hps := create_eq_ok B d hdB hB
  refine ⟨_, find_all_eq_ok S B d _ hps, ?_⟩
  have hzlt : x ^^^ y < 2 ^ 64 := Nat.xor_lt_two_pow (hS x hx) (hS y hy)
  have hsum := popcount_partition_sum (x ^^^ y) hzlt (natSpecs B)
    (natSpecs_partition B hB0 hB)
  have hcount : (((natSpecs B).filter
      (fun s => !(decide (x &&& onesRun s.1 s.2 = y &&& onesRun s.1 s.2)))).length) ≤ d := by
    have hle := length_filter_le_sum
      (fun s => popcount ((x ^^^ y) &&& onesRun s.1 s.2))
      (fun s => !(decide (x &&& onesRun s.1 s.2 = y &&& onesRun s.1 s.2)))
      (fun s hna => by
        apply popcount_pos_of_ne_zero
        intro h0
        have hagree := (xor_land_eq_zero_iff x y (onesRun s.1 s.2)).mp h0
        have hna' : (!decide (x &&& onesRun s.1 s.2 = y &&& onesRun s.1 s.2)) = true := hna
        rw [hagree] at hna'
        simp at hna')
      (natSpecs B)
    omega
  have hflen : B - d ≤ ((natSpecs B).filter
      (fun s => decide (x &&& onesRun s.1 s.2 = y &&& onesRun s.1 s.2))).length := by
    have hperm := (List.filter_append_perm
      (fun s => decide (x &&& onesRun s.1 s.2 = y &&& onesRun s.1 s.2)) (natSpecs B)).length_eq
    rw [List.length_append, natSpecs_length] at hperm
    have hcount' := hcount
    omega
  set chosen := (((natSpecs B).filter
    (fun s => decide (x &&& onesRun s.1 s.2 = y &&& onesRun s.1 s.2))).take (B - d))
    with hchosen
  have hchsub : chosen.Sublist (natSpecs B) :=
    (List.take_sublist _ _).trans (List.filter_sublist _)
  have hchlen : chosen.length = B - d := by
    rw [hchosen, List.length_take]
    omega
  set specs := chosen ++ (natSpecs B).filter (fun s => decide (s ∉ chosen)) with hspecs
  have hpart : SpecsPartition specs := choice_specs_partition B hB0 hB chosen hchsub
  set p := Permutation.build d (specMasks specs) with hpdef
  have hpmem := create_mem_of_choice B d hdB hB chosen hchsub hchlen _ hps
  have hslen : specs.length = B := by
    have h := (sublist_filter_append_perm (natSpecs B) chosen hchsub
      (natSpecs_nodup B hB0 hB)).length_eq
    rw [natSpecs_length] at h
    exact h
  have htake : specs.take (B - d) = chosen := by
    rw [hspecs]
    exact List.take_left' hchlen
  set W := ((chosen.map Prod.snd).sum) with hWdef
  have hWspec : ((specs.take (specs.length - d)).map Prod.snd).sum = W := by
    rw [hslen, htake]
  have hWle : W ≤ 64 := by
    have h := ChainOK_take_sum specs 0 (by omega) hpart.chainOK (B - d)
    rw [htake] at h
    omega
  have hsearch : p.search_mask_ = onesRun (64 - W) W := by
    rw [hpdef, build_search_mask d specs hpart.chainOK, hWspec]
  have hwd : withDst 0 specs
      = withDst 0 chosen ++ withDst (0 + (chosen.map Prod.snd).sum)
          ((natSpecs B).filter (fun s => decide (s ∉ chosen))) := by
    rw [hspecs]
    exact withDst_append chosen _ 0
  have hprefix : p.apply x &&& p.search_mask_ = p.apply y &&& p.search_mask_ := by
    rw [hsearch]
    apply Nat.eq_of_testBit_eq
    intro i
    rw [Nat.testBit_land, Nat.testBit_land]
    by_cases hmi : 64 - W ≤ i ∧ i < 64
    · obtain ⟨sd, hsd, h1, h2⟩ := withDst_dst_cover hpart i hmi.2
      have hsdch : sd ∈ withDst 0 chosen := by
        rcases List.mem_append.mp (by rw [← hwd]; exact hsd) with h | h
        · exact h
        · exfalso
          have hchain := ChainOK_append_right chosen _ 0
            (by rw [← hspecs]; exact hpart.chainOK)
          have hb := withDst_mem_bounds _ _ hchain sd h
          rw [Nat.zero_add, ← hWdef] at hb
          omega
      have hsfst : sd.1 ∈ chosen := withDst_fst_mem chosen 0 sd hsdch
      have hagree : x &&& onesRun sd.1.1 sd.1.2 = y &&& onesRun sd.1.1 sd.1.2 := by
        have hmf : sd.1 ∈ (natSpecs B).filter
            (fun s => decide (x &&& onesRun s.1 s.2 = y &&& onesRun s.1 s.2)) := by
          rw [hchosen] at hsfst
          exact (List.take_sublist _ _).subset hsfst
        have hpa := List.of_mem_filter hmf
        exact of_decide_eq_true hpa
      have hmaskbit : (onesRun (64 - W) W).testBit i = true :=
        (testBit_onesRun _ _ _).2 (by omega)
      rw [hmaskbit]
      have hbnd := withDst_mem_bounds specs 0 hpart.chainOK sd hsd
      have hxbit := testBit_apply_at d specs hpart.chainOK sd hsd i h1 h2 x
      have hybit := testBit_apply_at d specs hpart.chainOK sd hsd i h1 h2 y
      rw [hpdef, hxbit, hybit]
      have hxy_src := congrArg (fun z => z.testBit (sd.1.1 + (i - sd.2))) hagree
      simp only [Nat.testBit_land] at hxy_src
      have hsm : (onesRun sd.1.1 sd.1.2).testBit (sd.1.1 + (i - sd.2)) = true :=
        (testBit_onesRun _ _ _).2 (by omega)
      rw [hsm] at hxy_src
      simp only [Bool.and_true] at hxy_src
      rw [hxy_src]
    · have hb1 : (onesRun (64 - W) W).testBit i = false :=
        testBit_onesRun_false _ _ _ (by omega)
      rw [hb1]
      simp
  set copy := (S.map p.apply).mergeSort (fun a b => decide (a ≤ b)) with hcopy
  have hsorted := mergeSort_sorted (S.map p.apply)
  have hcopylt : ∀ a ∈ copy, a < 2 ^ 64 := by
    intro a ha
    obtain ⟨u, hu, hueq⟩ := (mergeSort_mem_map S p.apply a).mp ha
    rw [← hueq, hpdef]
    exact apply_build_lt d specs hpart.chainOK u
  have hxc : p.apply x ∈ copy := (mergeSort_mem_map S p.apply _).mpr ⟨x, hx, rfl⟩
  have hyc : p.apply y ∈ copy := (mergeSort_mem_map S p.apply _).mpr ⟨y, hy, rfl⟩
  have hmono2 : ∀ a ∈ copy, ∀ b ∈ copy, a ≤ b →
      a &&& p.search_mask_ ≤ b &&& p.search_mask_ := by
    intro a ha b hb hab
    rw [hsearch]
    exact land_topmask_mono W hWle a b (hcopylt a ha) (hcopylt b hb) hab
  obtain ⟨run, hrun, hxr, hyr⟩ := runsBy_same_run p.search_mask_ copy hsorted hmono2
    (p.apply x) (p.apply y) hxc hyc hprefix
  have hrevx : p.reverse (p.apply x) = x := by
    rw [hpdef]
    exact reverse_apply_build d specs hpart x (hS x hx)
  have hrevy : p.reverse (p.apply y) = y := by
    rw [hpdef]
    exact reverse_apply_build d specs hpart y (hS y hy)
  have hapne : p.apply x ≠ p.apply y := by
    intro heq
    apply hxy
    rw [← hrevx, ← hrevy, heq]
  have hdistp : num_differing_bits (p.apply x) (p.apply y) ≤ d := by
    rw [hpdef, num_differing_bits_apply_build d specs hpart x y (hS x hx) (hS y hy),
      num_differing_bits_eq_popcount]
    exact hdist
  have hinner : ∀ pr : Nat × Nat,
      pr = (p.apply x, p.apply y) ∨ pr = (p.apply y, p.apply x) →
      ∀ res2 : Finset (Nat × Nat), (min x y, max x y) ∈
        (if num_differing_bits pr.1 pr.2 ≤ d then
          insert (min (p.reverse pr.1) (p.reverse pr.2),
            max (p.reverse pr.1) (p.reverse pr.2)) res2
        else res2) := by
    rintro pr (rfl | rfl) res2
    · rw [if_pos hdistp]
      simp only [hrevx, hrevy]
      exact Finset.mem_insert_self _ _
    · rw [if_pos (by rw [num_differing_bits_comm]; exact hdistp)]
      simp only [hrevx, hrevy]
      rw [min_comm, max_comm]
      exact Finset.mem_insert_self _ _
  have hpairmono : ∀ (res2 : Finset (Nat × Nat)) (ab : Nat × Nat),
      res2 ⊆ (if num_differing_bits ab.1 ab.2 ≤ d then
        insert (min (p.reverse ab.1) (p.reverse ab.2),
          max (p.reverse ab.1) (p.reverse ab.2)) res2
      else res2) := by
    intro res2 ab
    split
    · exact Finset.subset_insert _ _
    · exact Finset.Subset.refl _
  have hrunstep : ∀ res : Finset (Nat × Nat), (min x y, max x y) ∈
      (pairsOf run).foldl (fun res2 ab =>
        if num_differing_bits ab.1 ab.2 ≤ d then
          insert (min (p.reverse ab.1) (p.reverse ab.2),
            max (p.reverse ab.1) (p.reverse ab.2)) res2
        else res2) res := by
    rcases pairsOf_complete run (p.apply x) (p.apply y) hxr hyr hapne with hpr | hpr
    · exact fun res => mem_foldl_of_mem_step _ hpairmono _ _
        (hinner (p.apply x, p.apply y) (Or.inl rfl)) (pairsOf run) hpr res
    · exact fun res => mem_foldl_of_mem_step _ hpairmono _ _
        (hinner (p.apply y, p.apply x) (Or.inr rfl)) (pairsOf run) hpr res
  have hrunmono : ∀ (res : Finset (Nat × Nat)) (run' : List Nat),
      res ⊆ (pairsOf run').foldl (fun res2 ab =>
        if num_differing_bits ab.1 ab.2 ≤ d then
          insert (min (p.reverse ab.1) (p.reverse ab.2),
            max (p.reverse ab.1) (p.reverse ab.2)) res2
        else res2) res := by
    intro res run'
    exact foldl_subset _ hpairmono (pairsOf run') res
  have hpermstep : ∀ results : Finset (Nat × Nat), (min x y, max x y) ∈
      (runsBy p.search_mask copy).foldl (fun res run' =>
        (pairsOf run').foldl (fun res2 ab =>
          if num_differing_bits ab.1 ab.2 ≤ d then
            insert (min (p.reverse ab.1) (p.reverse ab.2),
              max (p.reverse ab.1) (p.reverse ab.2)) res2
          else res2) res) results := by
    intro results
    exact mem_foldl_of_mem_step _ hrunmono run _ hrunstep
      (runsBy p.search_mask copy) hrun results
  have hpermmono : ∀ (results : Finset (Nat × Nat)) (p' : Permutation),
      results ⊆ (let copy' := (S.map p'.apply).mergeSort (fun a b => decide (a ≤ b))
        (runsBy p'.search_mask copy').foldl (fun res run' =>
          (pairsOf run').foldl (fun res2 ab =>
            if num_differing_bits ab.1 ab.2 ≤ d then
              insert (min (p'.reverse ab.1) (p'.reverse ab.2),
                max (p'.reverse ab.1) (p'.reverse ab.2)) res2
            else res2) res) results) := by
    intro results p'
    refine foldl_subset _ ?_ _ results
    intro res run'
    refine foldl_subset _ ?_ _ res
    intro res2 ab
    split
    · exact Finset.subset_insert _ _
    · exact Finset.Subset.refl _
  exact mem_foldl_of_mem_step _ hpermmono p _ hpermstep _ hpmem ∅

theorem find_all_sound (B d : Nat) (hd : 0 < d) (hdB : d < B) (hB : B ≤ 64)
    (S : List Nat) (hS : ∀ x ∈ S, x < 2 ^ 64) :
    ∃ R, find_all S B d = .ok R ∧ ∀ ab ∈ R,
      ab.1 ≤ ab.2 ∧ ab.1 ∈ S ∧ ab.2 ∈ S ∧ popcount (ab.1 ^^^ ab.2) ≤ d := by
  have hB0 : 0 < B := by omega
  obtain ⟨ps, hps⟩ : ∃ ps, Permutation.create B d = .ok ps :=
    ⟨_, create_eq_ok B d hdB hB⟩
  refine ⟨_, find_all_eq_ok S B d ps hps, ?_⟩
  intro ab hab
  have hmain := mem_foldl_of_step
    (fun x => x.1 ≤ x.2 ∧ x.1 ∈ S ∧ x.2 ∈ S ∧ popcount (x.1 ^^^ x.2) ≤ d)
    _ ps ?_ ∅ ab hab
  · rcases hmain with h | h
    · simp at h
    · exact h
  intro acc p hpmem x hx
  obtain ⟨sc, hsub, hlen, hpeq⟩ := create_mem_decomp B d hdB hB p ps hps hpmem
  set specs := sc ++ (natSpecs B).filter (fun s => decide (s ∉ sc)) with hspecs
  have hpart : SpecsPartition specs := choice_specs_partition B hB0 hB sc hsub
  set copy := (S.map p.apply).mergeSort (fun a b => decide (a ≤ b)) with hcopy
  refine mem_foldl_of_step
    (fun x => x.1 ≤ x.2 ∧ x.1 ∈ S ∧ x.2 ∈ S ∧ popcount (x.1 ^^^ x.2) ≤ d)
    _ (runsBy p.search_mask copy) ?_ acc x hx
  intro res run hrun y hy
  refine mem_foldl_of_step
    (fun x => x.1 ≤ x.2 ∧ x.1 ∈ S ∧ x.2 ∈ S ∧ popcount (x.1 ^^^ x.2) ≤ d)
    _ (pairsOf run) ?_ res y hy
  intro res2 pr hpr z hz
  by_cases hdist : num_differing_bits pr.1 pr.2 ≤ d
  · rw [if_pos hdist] at hz
    rcases Finset.mem_insert.mp hz with hz | hz
    · right
      have hmem := pairsOf_mem run pr hpr
      have h1 : pr.1 ∈ copy := runsBy_mem p.search_mask copy run pr.1 hrun hmem.1
      have h2 : pr.2 ∈ copy := runsBy_mem p.search_mask copy run pr.2 hrun hmem.2
      obtain ⟨a, ha, haeq⟩ := (mergeSort_mem_map S p.apply pr.1).mp h1
      obtain ⟨b, hb, hbeq⟩ := (mergeSort_mem_map S p.apply pr.2).mp h2
      have hra : p.reverse pr.1 = a := by
        rw [← haeq, hpeq]
        exact reverse_apply_build d specs hpart a (hS a ha)
      have hrb : p.reverse pr.2 = b := by
        rw [← hbeq, hpeq]
        exact reverse_apply_build d specs hpart b (hS b hb)
      have hdist' : num_differing_bits a b ≤ d := by
        rw [← haeq, ← hbeq, hpeq] at hdist
        rwa [num_differing_bits_apply_build d specs hpart a b (hS a ha) (hS b hb)] at hdist
      have hpop : popcount (min a b ^^^ max a b) ≤ d := by
        rcases le_total a b with hab' | hab'
        · rw [min_eq_left hab', max_eq_right hab']
          rwa [num_differing_bits_eq_popcount] at hdist'
        · rw [min_eq_right hab', max_eq_left hab']
          rw [num_differing_bits_eq_popcount, Nat.xor_comm] at hdist'
          exact hdist'
      rw [hz]
      simp only [hra, hrb]
      refine ⟨min_le_max, ?_, ?_, hpop⟩
      · rcases le_total a b with hab' | hab'
        · rw [min_eq_left hab']; exact ha
        · rw [min_eq_right hab']; exact hb
      · rcases le_total a b with hab' | hab'
        · rw [max_eq_right hab']; exact hb
        · rw [max_eq_left hab']; exact ha
    · exact Or.inl hz
  · rw [if_neg hdist] at hz
    exact Or.inl hz

theorem reach_symm (adj : Nat → Finset Nat) (hsymm : ∀ u w, u ∈ adj w ↔ w ∈ adj u)
    (a b : Nat) (h : Reach adj a b) : Reach adj b a := by
  induction h with
  | refl => exact Relation.ReflTransGen.refl
  | tail hab hbc ih =>
      exact Relation.ReflTransGen.head ((hsymm _ _).mpr hbc) ih

theorem bfsAux_spec (adj : Nat → Finset Nat) (U₀ old : Finset Nat) (start : Nat) :
    ∀ (frontier : List Nat) (unvisited cluster : Finset Nat),
      unvisited ⊆ U₀ →
      (∀ u ∈ old, u ∉ unvisited) →
      (∀ f ∈ frontier, f ∈ U₀ ∧ f ∉ old ∧ Reach adj start f) →
      (∀ c ∈ cluster, c ∈ U₀ ∧ c ∉ old ∧ Reach adj start c) →
      (∀ c ∈ cluster, c ∉ unvisited) →
      (∀ c ∈ cluster, ∀ w ∈ adj c, w ∈ unvisited → w ∈ frontier) →
      cluster ⊆ (bfsAux adj frontier unvisited cluster).1 ∧
      (bfsAux adj frontier unvisited cluster).2 ⊆ unvisited ∧
      (∀ v ∈ unvisited, v ∉ (bfsAux adj frontier unvisited cluster).2 →
        v ∈ (bfsAux adj frontier unvisited cluster).1) ∧
      (∀ f ∈ frontier, f ∈ (bfsAux adj frontier unvisited cluster).1) ∧
      (∀ c ∈ (bfsAux adj frontier unvisited cluster).1,
        c ∈ U₀ ∧ c ∉ old ∧ Reach adj start c) ∧
      (∀ c ∈ (bfsAux adj frontier unvisited cluster).1,
        ∀ w ∈ adj c, w ∉ (bfsAux adj frontier unvisited cluster).2) ∧
      (∀ c ∈ (bfsAux adj frontier unvisited cluster).1,
        c ∉ (bfsAux adj frontier unvisited cluster).2) := by
  intro frontier unvisited cluster
  induction frontier, unvisited, cluster using bfsAux.induct adj with
  | case1 unvisited cluster =>
      intro hUsub hold hfr hcl hclun hcladj
      rw [bfsAux]
      refine ⟨Finset.Subset.refl _, Finset.Subset.refl _, ?_, ?_, hcl, ?_, hclun⟩
      · intro v hv hnv
        exact absurd hv hnv
      · intro f hf
        cases hf
      · intro c hc w hw hwu
        cases hcladj c hc w hw hwu
  | case2 n rest unvisited cluster ih =>
      intro hUsub hold hfr hcl hclun hcladj
      rw [bfsAux]
      have hn := hfr n (List.mem_cons_self n rest)
      have hu1 : unvisited.erase n ⊆ unvisited := Finset.erase_subset n unvisited
      have hfr' : ∀ f ∈ rest ++ ((unvisited.erase n ∩ adj n).sort (· ≤ ·)),
          f ∈ U₀ ∧ f ∉ old ∧ Reach adj start f := by
        intro f hf
        rcases List.mem_append.mp hf with hf | hf
        · exact hfr f (List.mem_cons_of_mem _ hf)
        · rw [Finset.mem_sort] at hf
          have hfun : f ∈ unvisited := hu1 (Finset.mem_of_mem_inter_left hf)
          have hfadj : f ∈ adj n := Finset.mem_of_mem_inter_right hf
          refine ⟨hUsub hfun, ?_, Relation.ReflTransGen.tail hn.2.2 hfadj⟩
          intro hfold
          exact hold f hfold hfun
      have hih := ih (Finset.Subset.trans (Finset.sdiff_subset) (Finset.Subset.trans hu1 hUsub))
        (fun u hu huv => hold u hu (hu1 (Finset.mem_sdiff.mp huv).1))
        hfr'
        (fun c hc => by
          rcases Finset.mem_insert.mp hc with rfl | hc'
          · exact hn
          · exact hcl c hc')
        (fun c hc => by
          rcases Finset.mem_insert.mp hc with rfl | hc'
          · intro hmem
            have := (Finset.mem_sdiff.mp hmem).1
            exact (Finset.not_mem_erase c unvisited) this
          · intro hmem
            exact hclun c hc' (hu1 (Finset.mem_sdiff.mp hmem).1))
        (fun c hc w hw hwmem => by
          rcases Finset.mem_insert.mp hc with rfl | hc'
          · exact absurd hw (Finset.mem_sdiff.mp hwmem).2
          · have hwun : w ∈ unvisited := hu1 (Finset.mem_sdiff.mp hwmem).1
            have := hcladj c hc' w hw hwun
            rcases List.mem_cons.mp this with rfl | hwrest
            · exfalso
              exact (Finset.not_mem_erase w unvisited) (Finset.mem_sdiff.mp hwmem).1
            · exact List.mem_append.mpr (Or.inl hwrest))
      obtain ⟨ih1, ih2, ih3, ih4, ih5, ih6, ih7⟩ := hih
      refine ⟨?_, ?_, ?_, ?_, ih5, ih6, ih7⟩
      · exact Finset.Subset.trans (Finset.subset_insert n cluster) ih1
      · exact Finset.Subset.trans ih2
          (Finset.Subset.trans (Finset.sdiff_subset) hu1)
      · intro v hv hnv
        by_cases hv' : v ∈ unvisited.erase n \ adj n
        · exact ih3 v hv' hnv
        · by_cases hvn : v = n
          · exact ih1 (by rw [hvn]; exact Finset.mem_insert_self n cluster)
          · have hve : v ∈ unvisited.erase n := Finset.mem_erase.mpr ⟨hvn, hv⟩
            have hvadj : v ∈ adj n := by
              by_contra hvna
              exact hv' (Finset.mem_sdiff.mpr ⟨hve, hvna⟩)
            apply ih4
            apply List.mem_append.mpr
            right
            rw [Finset.mem_sort]
            exact Finset.mem_inter.mpr ⟨hve, hvadj⟩
      · intro f hf
        rcases List.mem_cons.mp hf with rfl | hf'
        · exact ih1 (Finset.mem_insert_self f cluster)
        · exact ih4 f (List.mem_append.mpr (Or.inl hf'))

theorem clustersAux_spec (adj : Nat → Finset Nat) (U₀ : Finset Nat)
    (hadjU : ∀ v, adj v ⊆ U₀) (hsymm : ∀ u w, u ∈ adj w ↔ w ∈ adj u) :
    ∀ (verts : List Nat) (unvisited : Finset Nat),
      unvisited ⊆ U₀ →
      (∀ u ∈ U₀, u ∉ unvisited → ∀ w ∈ adj u, w ∉ unvisited) →
      (∀ K ∈ clustersAux adj verts unvisited, K.Nonempty ∧
        (∀ u ∈ K, u ∈ unvisited) ∧
        (∀ u ∈ K, ∀ w ∈ adj u, w ∈ K) ∧
        (∀ a ∈ K, ∀ b ∈ K, Reach adj a b)) ∧
      List.Pairwise (fun K K' => ∀ a ∈ K, a ∉ K') (clustersAux adj verts unvisited) ∧
      (∀ v ∈ verts, v ∈ unvisited → ∃ K ∈ clustersAux adj verts unvisited, v ∈ K) := by
  intro verts
  induction verts with
  | nil =>
      intro unvisited _ _
      refine ⟨?_, ?_, ?_⟩
      · intro K hK; cases hK
      · exact List.Pairwise.nil
      · intro v hv; cases hv
  | cons v rest ih =>
      intro unvisited hUsub hclosed
      by_cases hv : v ∈ unvisited
      · rw [clustersAux, if_pos hv]
        have hspec := bfsAux_spec adj U₀ (U₀ \ unvisited) v
          ((adj v).sort (· ≤ ·)) (unvisited.erase v) {v}
          (Finset.Subset.trans (Finset.erase_subset v unvisited) hUsub)
          (fun u hu => by
            have := (Finset.mem_sdiff.mp hu).2
            intro hue
            exact this (Finset.erase_subset v unvisited hue))
          (fun f hf => by
            rw [Finset.mem_sort] at hf
            refine ⟨hadjU v hf, ?_, Relation.ReflTransGen.single hf⟩
            intro hfold
            obtain ⟨hfU, hfnu⟩ := Finset.mem_sdiff.mp hfold
            exact hclosed f hfU hfnu v ((hsymm v f).mpr hf) hv)
          (fun c hc => by
            rw [Finset.mem_singleton] at hc
            subst hc
            refine ⟨hUsub hv, ?_, Relation.ReflTransGen.refl⟩
            intro hvold
            exact (Finset.mem_sdiff.mp hvold).2 hv)
          (fun c hc => by
            rw [Finset.mem_singleton] at hc
            subst hc
            exact Finset.not_mem_erase c unvisited)
          (fun c hc w hw hwu => by
            rw [Finset.mem_singleton] at hc
            subst hc
            rw [Finset.mem_sort]
            exact hw)
        obtain ⟨b1, b2, b3, b4, b5, b6, b7⟩ := hspec
        set r := bfsAux adj ((adj v).sort (· ≤ ·)) (unvisited.erase v) {v} with hr
        have hvr : v ∈ r.1 := b1 (Finset.mem_singleton_self v)
        have hmemun : ∀ u ∈ r.1, u ∈ unvisited := by
          intro u hu
          obtain ⟨huU, hunold, _⟩ := b5 u hu
          by_contra hun
          exact hunold (Finset.mem_sdiff.mpr ⟨huU, hun⟩)
        have hclosedK : ∀ u ∈ r.1, ∀ w ∈ adj u, w ∈ r.1 := by
          intro u hu w hw
          have hwnr2 : w ∉ r.2 := b6 u hu w hw
          have hwU : w ∈ U₀ := hadjU u hw
          have hwun : w ∈ unvisited := by
            by_contra hwun
            exact hclosed w hwU hwun u ((hsymm u w).mpr hw) (hmemun u hu)
          by_cases hwv : w = v
          · rw [hwv]; exact hvr
          · exact b3 w (Finset.mem_erase.mpr ⟨hwv, hwun⟩) hwnr2
        have hr2sub : r.2 ⊆ unvisited :=
          Finset.Subset.trans b2 (Finset.erase_subset v unvisited)
        have hclosed' : ∀ u ∈ U₀, u ∉ r.2 → ∀ w ∈ adj u, w ∉ r.2 := by
          intro u huU hur2 w hw
          by_cases hun : u ∈ unvisited
          · have hur1 : u ∈ r.1 := by
              by_cases huv : u = v
              · rw [huv]; exact hvr
              · exact b3 u (Finset.mem_erase.mpr ⟨huv, hun⟩) hur2
            exact b6 u hur1 w hw
          · intro hwr2
            exact hclosed u huU hun w hw (hr2sub hwr2)
        obtain ⟨ih1, ih2, ih3⟩ := ih r.2 (Finset.Subset.trans hr2sub hUsub) hclosed'
        refine ⟨?_, ?_, ?_⟩
        · intro K hK
          rcases List.mem_cons.mp hK with rfl | hK'
          · refine ⟨⟨v, hvr⟩, hmemun, hclosedK, ?_⟩
            intro a ha b hb
            exact Relation.ReflTransGen.trans
              (reach_symm adj hsymm v a (b5 a ha).2.2) (b5 b hb).2.2
          · obtain ⟨hne, hmem, hcl, hre⟩ := ih1 K hK'
            exact ⟨hne, fun u hu => hr2sub (hmem u hu), hcl, hre⟩
        · rw [List.pairwise_cons]
          refine ⟨?_, ih2⟩
          intro K' hK' a ha haK'
          obtain ⟨_, hmem, _, _⟩ := ih1 K' hK'
          exact b7 a ha (hmem a haK')
        · intro v' hv' hv'un
          rcases List.mem_cons.mp hv' with rfl | hv'rest
          · exact ⟨r.1, List.mem_cons_self _ _, hvr⟩
          · by_cases hv'r2 : v' ∈ r.2
            · obtain ⟨K, hK, hvK⟩ := ih3 v' hv'rest hv'r2
              exact ⟨K, List.mem_cons_of_mem _ hK, hvK⟩
            · by_cases hv'v : v' = v
              · exact ⟨r.1, List.mem_cons_self _ _, by rw [hv'v]; exact hvr⟩
              · exact ⟨r.1, List.mem_cons_self _ _,
                  b3 v' (Finset.mem_erase.mpr ⟨hv'v, hv'un⟩) hv'r2⟩
      · rw [clustersAux, if_neg hv]
        obtain ⟨ih1, ih2, ih3⟩ := ih unvisited hUsub hclosed
        refine ⟨ih1, ih2, ?_⟩
        intro v' hv' hv'un
        rcases List.mem_cons.mp hv' with rfl | hv'rest
        · exact absurd hv'un hv
        · exact ih3 v' hv'rest hv'un

theorem mem_adjOf_iff (ms : Finset (Nat × Nat)) (v w : Nat) :
    w ∈ adjOf ms v ↔ MatchStep ms v w := by
  simp only [adjOf, MatchStep, Finset.mem_union, Finset.mem_image,
    Finset.mem_filter, Prod.exists]
  constructor
  · rintro (⟨a, b, ⟨hm, h1⟩, h2⟩ | ⟨a, b, ⟨hm, h1⟩, h2⟩)
    · subst h1; subst h2; exact Or.inl hm
    · subst h1; subst h2; exact Or.inr hm
  · rintro (hm | hm)
    · exact Or.inl ⟨v, w, ⟨hm, rfl⟩, rfl⟩
    · exact Or.inr ⟨w, v, ⟨hm, rfl⟩, rfl⟩

theorem mem_endpointsOf_iff (ms : Finset (Nat × Nat)) (v : Nat) :
    v ∈ endpointsOf ms ↔ ∃ w, MatchStep ms v w := by
  simp only [endpointsOf, Finset.mem_union, Finset.mem_image, Prod.exists,
    MatchStep]
  constructor
  · rintro (⟨a, b, hm, h⟩ | ⟨a, b, hm, h⟩)
    · subst h; exact ⟨b, Or.inl hm⟩
    · subst h; exact ⟨a, Or.inr hm⟩
  · rintro ⟨w, hm | hm⟩
    · exact Or.inl ⟨v, w, hm, rfl⟩
    · exact Or.inr ⟨w, v, hm, rfl⟩

theorem adjOf_subset_endpoints (ms : Finset (Nat × Nat)) (v : Nat) :
    adjOf ms v ⊆ endpointsOf ms := by
  intro w hw
  rcases (mem_adjOf_iff ms v w).mp hw with hm | hm
  · exact (mem_endpointsOf_iff ms w).mpr ⟨v, Or.inr hm⟩
  · exact (mem_endpointsOf_iff ms w).mpr ⟨v, Or.inl hm⟩

theorem adjOf_symm (ms : Finset (Nat × Nat)) (u w : Nat) :
    u ∈ adjOf ms w ↔ w ∈ adjOf ms u := by
  rw [mem_adjOf_iff, mem_adjOf_iff, MatchStep, MatchStep]
  exact or_comm

theorem reach_matchPath (ms : Finset (Nat × Nat)) (a b : Nat)
    (h : Reach (adjOf ms) a b) : MatchPath ms a b := by
  induction h with
  | refl => exact Relation.ReflTransGen.refl
  | tail hab hbc ih =>
      exact Relation.ReflTransGen.tail ih ((mem_adjOf_iff ms _ _).mp hbc)

theorem find_clusters_spec (S : List Nat) (B d : Nat)
    (hdB : d < B) (hB : B ≤ 64) :
    ∃ R L, find_all S B d = .ok R ∧ find_clusters S B d = .ok L ∧
      List.Pairwise (fun K K' => ∀ a ∈ K, a ∉ K') L ∧
      (∀ v, (∃ K ∈ L, v ∈ K) ↔ ∃ w, MatchStep R v w) ∧
      (∀ K ∈ L, ∀ a ∈ K, ∀ b ∈ K, MatchPath R a b) := by
  obtain ⟨ps, hps⟩ : ∃ ps, Permutation.create B d = .ok ps :=
    ⟨_, create_eq_ok B d hdB hB⟩
  obtain ⟨R, hR⟩ : ∃ R, find_all S B d = .ok R :=
    ⟨_, find_all_eq_ok S B d ps hps⟩
  refine ⟨R, clustersAux (adjOf R) ((endpointsOf R).sort (· ≤ ·)) (endpointsOf R),
    hR, ?_, ?_⟩
  · rw [find_clusters, hR]
    rfl
  · obtain ⟨h1, h2, h3⟩ := clustersAux_spec (adjOf R) (endpointsOf R)
      (adjOf_subset_endpoints R) (adjOf_symm R)
      ((endpointsOf R).sort (· ≤ ·)) (endpointsOf R)
      (Finset.Subset.refl _)
      (fun u hU hu _ _ _ => absurd hU hu)
    refine ⟨h2, ?_, ?_⟩
    · intro v
      constructor
      · rintro ⟨K, hK, hvK⟩
        obtain ⟨_, hmem, _, _⟩ := h1 K hK
        exact (mem_endpointsOf_iff R v).mp (hmem v hvK)
      · intro hw
        have hv : v ∈ endpointsOf R := (mem_endpointsOf_iff R v).mpr hw
        exact h3 v ((Finset.mem_sort _).mpr hv) hv
    · intro K hK a ha b hb
      obtain ⟨_, _, _, hre⟩ := h1 K hK
      exact reach_matchPath R a b (hre a ha b hb)

theorem find_all_isOk_eq (S : List Nat) (B d : Nat) :
    exceptIsOk (find_all S B d) = exceptIsOk (Permutation.create B d) := by
  rw [find_all]
  cases hc : Permutation.create B d with
  | ok ps => rfl
  | error e => rfl

theorem find_clusters_isOk_eq (S : List Nat) (B d : Nat) :
    exceptIsOk (find_clusters S B d) = exceptIsOk (find_all S B d) := by
  rw [find_clusters]
  cases hc : find_all S B d with
  | ok ms => rfl
  | error e => rfl

/-!
## The specification claims
-/

/-- **C1** (completeness of the search): for every `(B, d)` with
`0 < d < B ≤ 64`, every list `S` of 64-bit fingerprints, and every pair of
distinct fingerprints `x, y ∈ S` with `popcount (x ^^^ y) ≤ d`, the match
set returned by `find_all S B d` contains the canonical pair
`(min x y, max x y)`. -/
theorem claim_C1 (B d : Nat) (hd : 0 < d) (hdB : d < B) (hB : B ≤ 64)
    (S : List Nat) (hS : ∀ h ∈ S, h < 2 ^ 64)
    (x y : Nat) (hx : x ∈ S) (hy : y ∈ S) (hxy : x ≠ y)
    (hdist : popcount (x ^^^ y) ≤ d) :
    ∃ R, find_all S B d = .ok R ∧ (min x y, max x y) ∈ R :=
  find_all_complete B d hd hdB hB S hS x y hx hy hxy hdist

theorem claim_C1_witness :
    ∃ R, find_all [0, 1] 2 1 = .ok R ∧ (min 0 1, max 0 1) ∈ R :=
  claim_C1 2 1 (by decide) (by decide) (by decide) [0, 1] (by decide)
    0 1 (by decide) (by decide) (by decide) (by simp [popcount_one])

/-- **C2** (soundness and canonicalization): for every `(B, d)` with
`0 < d < B ≤ 64` and every list `S` of 64-bit fingerprints, every pair
`(a, b)` in the match set returned by `find_all S B d` satisfies `a ≤ b`,
both `a` and `b` are members of `S`, and `popcount (a ^^^ b) ≤ d`. -/
theorem claim_C2 (B d : Nat) (hd : 0 < d) (hdB : d < B) (hB : B ≤ 64)
    (S : List Nat) (hS : ∀ x ∈ S, x < 2 ^ 64) :
    ∃ R, find_all S B d = .ok R ∧ ∀ ab ∈ R,
      ab.1 ≤ ab.2 ∧ ab.1 ∈ S ∧ ab.2 ∈ S ∧ popcount (ab.1 ^^^ ab.2) ≤ d :=
  find_all_sound B d hd hdB hB S hS

theorem claim_C2_witness :
    ∃ R, find_all [0, 1] 2 1 = .ok R ∧ ∀ ab ∈ R,
      ab.1 ≤ ab.2 ∧ ab.1 ∈ [0, 1] ∧ ab.2 ∈ [0, 1] ∧ popcount (ab.1 ^^^ ab.2) ≤ 1 :=
  claim_C2 2 1 (by decide) (by decide) (by decide) [0, 1] (by decide)

/-- **C6** (family size and structure): for every `(B, d)` with
`0 < d < B ≤ 64`, `Permutation.create B d` returns one permutation per
element of a list `cs` of block choices that has exactly `C(B, d)`
elements, contains exactly the size-`(B - d)` subsequences of the block
list, and is ordered lexicographically; each permutation is built from
the mask list of its chosen blocks first, in original relative order,
followed by the non-chosen blocks, in original relative order. -/
theorem claim_C6 (B d : Nat) (_hd : 0 < d) (hdB : d < B) (hB : B ≤ 64) :
    ∃ cs : List (List Nat),
      Permutation.create B d = .ok (cs.map (fun c =>
        Permutation.build d (c ++ (blocksList B).filter (fun block => decide (block ∉ c))))) ∧
      cs.length = Nat.choose B d ∧
      (∀ c, c ∈ cs ↔ (c.Sublist (blocksList B) ∧ c.length = B - d)) ∧
      List.Pairwise (List.Lex (· < ·)) cs := by
  refine ⟨combinations (B - d) (blocksList B), create_eq_ok B d hdB hB, ?_, ?_, ?_⟩
  · rw [combinations_length, blocksList_length]
    exact Nat.choose_symm (le_of_lt hdB)
  · intro c
    exact mem_combinations_iff (B - d) (blocksList B) c
  · exact combinations_pairwise_lex (blocksList B)
      (blocksList_pairwise_lt B (by omega) hB) (B - d)

theorem claim_C6_witness :
    ∃ cs : List (List Nat),
      Permutation.create 2 1 = .ok (cs.map (fun c =>
        Permutation.build 1 (c ++ (blocksList 2).filter (fun block => decide (block ∉ c))))) ∧
      cs.length = Nat.choose 2 1 ∧
      (∀ c, c ∈ cs ↔ (c.Sublist (blocksList 2) ∧ c.length = 2 - 1)) ∧
      List.Pairwise (List.Lex (· < ·)) cs :=
  claim_C6 2 1 (by decide) (by decide) (by decide)

/-- **C7** (search-mask shape): for every `(B, d)` with `0 < d < B ≤ 64`
and every permutation `p` of the family, `popcount p.search_mask_` equals
the sum of the widths (popcounts) of the first `B - d` forward masks of
`p`, and the set bits of `p.search_mask_` are exactly the top that many
bit positions of the 64-bit word. -/
theorem claim_C7 (B d : Nat) (_hd : 0 < d) (hdB : d < B) (hB : B ≤ 64)
    (ps : List Permutation) (hps : Permutation.create B d = .ok ps)
    (p : Permutation) (hp : p ∈ ps) :
    popcount p.search_mask_ = ((p.forward_masks.take (B - d)).map popcount).sum ∧
    (∀ i, p.search_mask_.testBit i = true ↔
      (64 - ((p.forward_masks.take (B - d)).map popcount).sum ≤ i ∧ i < 64)) := by
  obtain ⟨sc, hsub, hlen, rfl⟩ := create_mem_decomp B d hdB hB p ps hps hp
  have hB0 : 0 < B := by omega
  have hpart := choice_specs_partition B hB0 hB sc hsub
  have hlenspecs : (sc ++ (natSpecs B).filter (fun s => decide (s ∉ sc))).length = B := by
    have hperm := sublist_filter_append_perm (natSpecs B) sc hsub (natSpecs_nodup B hB0 hB)
    rw [hperm.length_eq, natSpecs_length]
  have hmask := build_search_mask d _ hpart.chainOK
  have hfw : (Permutation.build d
        (specMasks (sc ++ (natSpecs B).filter (fun s => decide (s ∉ sc))))).forward_masks
      = specMasks (sc ++ (natSpecs B).filter (fun s => decide (s ∉ sc))) := rfl
  have hWeq : (((specMasks (sc ++ (natSpecs B).filter
          (fun s => decide (s ∉ sc)))).take (B - d)).map popcount).sum
      = (((sc ++ (natSpecs B).filter
          (fun s => decide (s ∉ sc))).take (B - d)).map Prod.snd).sum := by
    rw [specMasks, ← List.map_take, List.map_map]
    apply congrArg
    apply List.map_congr_left
    intro s _
    exact popcount_onesRun s.1 s.2
  have hW64 : (((sc ++ (natSpecs B).filter
        (fun s => decide (s ∉ sc))).take (B - d)).map Prod.snd).sum ≤ 64 := by
    have := ChainOK_take_sum _ 0 (by omega) hpart.chainOK (B - d)
    omega
  constructor
  · rw [hmask, popcount_onesRun, hfw, hWeq, hlenspecs]
  · intro i
    rw [hmask, testBit_onesRun, hfw, hWeq, hlenspecs]
    omega

theorem claim_C7_witness :
    ∃ ps, Permutation.create 2 1 = Except.ok ps ∧ ∀ p ∈ ps,
      popcount p.search_mask_ = ((p.forward_masks.take (2 - 1)).map popcount).sum ∧
      ∀ i, p.search_mask_.testBit i = true ↔
        (64 - ((p.forward_masks.take (2 - 1)).map popcount).sum ≤ i ∧ i < 64) :=
  ⟨_, rfl, fun p hp => claim_C7 2 1 (by decide) (by decide) (by decide) _ rfl p hp⟩

/-- **C9** (corrected; block placement order): the claim states that the
constructor places the masks of its input list from low positions to high
positions in list order.  The code does the opposite: the first mask is
placed in the highest positions and each later mask strictly below it —
see `claim_C9_counterexample`, where the earlier block of two lands at
positions 32–63.  This theorem states the corrected order: for any two
consecutive masks of the constructor's input list (here a partition of
the 64 bit positions into contiguous blocks `(lo, width)`), `apply` maps
every bit of the earlier mask to a strictly *higher* position of the
permuted word than every bit of the later mask. -/
theorem claim_C9 (d : Nat) (pre post : List (Nat × Nat)) (s s' : Nat × Nat)
    (hp : SpecsPartition (pre ++ s :: s' :: post))
    (i i' : Nat) (hi : s.1 ≤ i) (hi2 : i < s.1 + s.2)
    (hi' : s'.1 ≤ i') (hi'2 : i' < s'.1 + s'.2) :
    ∃ t t',
      (Permutation.build d (specMasks (pre ++ s :: s' :: post))).apply (1 <<< i)
        = 1 <<< t ∧
      (Permutation.build d (specMasks (pre ++ s :: s' :: post))).apply (1 <<< i')
        = 1 <<< t' ∧
      t' < t := by
  have hwd : withDst 0 (pre ++ s :: s' :: post)
      = withDst 0 pre ++ (s, 64 - ((pre.map Prod.snd).sum + s.2)) ::
        (s', 64 - ((pre.map Prod.snd).sum + s.2 + s'.2)) ::
        withDst ((pre.map Prod.snd).sum + s.2 + s'.2) post := by
    rw [withDst_append, Nat.zero_add]
    rfl
  have hsd : ((s, 64 - ((pre.map Prod.snd).sum + s.2)) : (Nat × Nat) × Nat)
      ∈ withDst 0 (pre ++ s :: s' :: post) := by
    rw [hwd]
    exact List.mem_append_right _ (List.mem_cons_self _ _)
  have hsd' : ((s', 64 - ((pre.map Prod.snd).sum + s.2 + s'.2)) : (Nat × Nat) × Nat)
      ∈ withDst 0 (pre ++ s :: s' :: post) := by
    rw [hwd]
    exact List.mem_append_right _ (List.mem_cons_of_mem _ (List.mem_cons_self _ _))
  have h1 := apply_build_single d (pre ++ s :: s' :: post) hp
    (s, 64 - ((pre.map Prod.snd).sum + s.2)) hsd i hi hi2
  have h2 := apply_build_single d (pre ++ s :: s' :: post) hp
    (s', 64 - ((pre.map Prod.snd).sum + s.2 + s'.2)) hsd' i' hi' hi'2
  have hsum : ((pre ++ s :: s' :: post).map Prod.snd).sum = 64 := hp.2.1
  have hsum' : (pre.map Prod.snd).sum + s.2 + s'.2 ≤ 64 := by
    simp only [List.map_append, List.sum_append, List.map_cons, List.sum_cons] at hsum
    omega
  have hw' : 0 < s'.2 :=
    (hp.1 s' (List.mem_append_right _
      (List.mem_cons_of_mem _ (List.mem_cons_self _ _)))).1
  refine ⟨64 - ((pre.map Prod.snd).sum + s.2) + (i - s.1),
    64 - ((pre.map Prod.snd).sum + s.2 + s'.2) + (i' - s'.1), h1, h2, ?_⟩
  omega

theorem claim_C9_witness :
    ∃ t t',
      (Permutation.build 1 (specMasks ([] ++ (0, 32) :: (32, 32) :: []))).apply (1 <<< 0)
        = 1 <<< t ∧
      (Permutation.build 1 (specMasks ([] ++ (0, 32) :: (32, 32) :: []))).apply (1 <<< 32)
        = 1 <<< t' ∧
      t' < t := by
  have hp : SpecsPartition ([] ++ (0, 32) :: (32, 32) :: []) := by
    have h := natSpecs_partition 2 (by norm_num) (by norm_num)
    have he : natSpecs 2 = [] ++ (0, 32) :: (32, 32) :: [] := by decide
    rwa [he] at h
  exact claim_C9 1 [] [] (0, 32) (32, 32) hp 0 32
    (by norm_num) (by norm_num) (by norm_num) (by norm_num)

/-- **C9, counterexample to the claimed order**: for the two-block
partition of the 64-bit word, bit `0` lies in the first (earlier) mask of
the constructor's list and bit `32` in the second (later) mask, yet
`apply` sends bit `0` to position `32` and bit `32` to position `0`: the
earlier mask lands at strictly higher positions, not lower ones. -/
theorem claim_C9_counterexample :
    Nat.testBit (blockMask 2 0) 0 = true ∧ Nat.testBit (blockMask 2 1) 32 = true ∧
    (Permutation.build 1 [blockMask 2 0, blockMask 2 1]).apply (1 <<< 0) = 1 <<< 32 ∧
    (Permutation.build 1 [blockMask 2 0, blockMask 2 1]).apply (1 <<< 32) = 1 <<< 0 :=
  ⟨by decide, by decide, by decide, by decide⟩

/-- **C8** (fold bit rule): for every list of 64-bit feature hashes and
every bit position `i < 64`, bit `i` of `compute hashes` is `1` iff the
signed count `c_i` (`+1` per feature with bit `i` set, `-1` otherwise) is
strictly positive, which holds iff strictly more than half of the feature
hashes have bit `i` set; ties (`c_i = 0`) yield `0`, and the empty list
yields the fingerprint `0`. -/
theorem claim_C8 (hashes : List Nat) (i : Nat) (hi : i < 64) :
    ((compute hashes).testBit i = true ↔ 0 < bitCounter hashes i) ∧
    (0 < bitCounter hashes i ↔
      hashes.length < 2 * hashes.countP (fun h => h.testBit i)) ∧
    (bitCounter hashes i = 0 → (compute hashes).testBit i = false) ∧
    compute [] = 0 := by
  have h1 : (compute hashes).testBit i = true ↔ 0 < bitCounter hashes i := by
    rw [testBit_compute]
    exact ⟨fun h => h.2, fun h => ⟨hi, h⟩⟩
  refine ⟨h1, ?_, ?_, by decide⟩
  · rw [bitCounter_eq]
    omega
  · intro h
    cases hb : (compute hashes).testBit i with
    | false => rfl
    | true => exact absurd (h1.mp hb) (by rw [h]; omega)

/-- **C3** (permutation roundtrip): for every `(B, d)` with
`0 < d < B ≤ 64`, every permutation `p` in the family produced by
`Permutation.create B d`, and every 64-bit hash `h`,
`p.reverse (p.apply h) = h` and `p.apply (p.reverse h) = h`. -/
theorem claim_C3 (B d : Nat) (_hd : 0 < d) (hdB : d < B) (hB : B ≤ 64)
    (ps : List Permutation) (hps : Permutation.create B d = .ok ps)
    (p : Permutation) (hp : p ∈ ps) (h : Nat) (hh : h < 2 ^ 64) :
    p.reverse (p.apply h) = h ∧ p.apply (p.reverse h) = h := by
  obtain ⟨sc, hsub, hlen, rfl⟩ := create_mem_decomp B d hdB hB p ps hps hp
  have hpart := choice_specs_partition B (by omega) hB sc hsub
  exact ⟨reverse_apply_build d _ hpart h hh, apply_reverse_build d _ hpart h hh⟩

theorem claim_C3_witness :
    ∃ ps, Permutation.create 2 1 = Except.ok ps ∧ ∀ p ∈ ps,
      p.reverse (p.apply 5) = 5 ∧ p.apply (p.reverse 5) = 5 :=
  ⟨_, rfl, fun p hp => claim_C3 2 1 (by decide) (by decide) (by decide)
    _ rfl p hp 5 (by norm_num)⟩

/-- **C4** (cluster partition): for every `(B, d)` with `0 < d < B ≤ 64`
and every list `S` of fingerprints, `find_clusters S B d` succeeds with a
list of clusters that are pairwise disjoint, whose union is exactly the
set of endpoints of the matches of `find_all S B d`, in which every two
members of one cluster are joined by a path of match edges, and which
contains no fingerprint without a match. -/
theorem claim_C4 (S : List Nat) (B d : Nat) (_hd : 0 < d) (hdB : d < B) (hB : B ≤ 64) :
    ∃ R L, find_all S B d = .ok R ∧ find_clusters S B d = .ok L ∧
      List.Pairwise (fun K K' => ∀ a ∈ K, a ∉ K') L ∧
      (∀ v, (∃ K ∈ L, v ∈ K) ↔ ∃ w, MatchStep R v w) ∧
      (∀ K ∈ L, ∀ a ∈ K, ∀ b ∈ K, MatchPath R a b) ∧
      (∀ v, (∀ w, ¬ MatchStep R v w) → ∀ K ∈ L, v ∉ K) := by
  obtain ⟨R, L, h1, h2, h3, h4, h5⟩ := find_clusters_spec S B d hdB hB
  refine ⟨R, L, h1, h2, h3, h4, h5, ?_⟩
  intro v hv K hK hvK
  obtain ⟨w, hw⟩ := (h4 v).mp ⟨K, hK, hvK⟩
  exact hv w hw

theorem claim_C4_witness :
    ∃ R L, find_all [0, 1] 2 1 = .ok R ∧ find_clusters [0, 1] 2 1 = .ok L ∧
      List.Pairwise (fun K K' => ∀ a ∈ K, a ∉ K') L ∧
      (∀ v, (∃ K ∈ L, v ∈ K) ↔ ∃ w, MatchStep R v w) ∧
      (∀ K ∈ L, ∀ a ∈ K, ∀ b ∈ K, MatchPath R a b) ∧
      (∀ v, (∀ w, ¬ MatchStep R v w) → ∀ K ∈ L, v ∉ K) :=
  claim_C4 [0, 1] 2 1 (by decide) (by decide) (by decide)

/-- **C5** (corrected; precondition failure iff out of range): the claim
states that `Permutation.create B d` (and hence `find_all` and
`find_clusters`) fails exactly when `d = 0`, or `B ≤ d`, or `B > 64`.
The code never tests `d = 0`: `create` fails exactly when `64 < B` or
`B ≤ d`, and `d = 0` alone (with `0 < B ≤ 64`) is accepted — see
`claim_C5_counterexample`.  This theorem states the corrected
equivalence, also for `find_all` and `find_clusters`. -/
theorem claim_C5 (B d : Nat) (S : List Nat) :
    (exceptIsOk (Permutation.create B d) = false ↔ (64 < B ∨ B ≤ d)) ∧
    (exceptIsOk (find_all S B d) = false ↔ (64 < B ∨ B ≤ d)) ∧
    (exceptIsOk (find_clusters S B d) = false ↔ (64 < B ∨ B ≤ d)) := by
  have hcreate : exceptIsOk (Permutation.create B d) = false ↔ (64 < B ∨ B ≤ d) := by
    by_cases h1 : 64 < B
    · rw [Permutation.create, if_pos h1]
      simp [exceptIsOk, h1]
    · by_cases h2 : B ≤ d
      · rw [Permutation.create, if_neg h1, if_pos h2]
        simp [exceptIsOk, h2]
      · rw [create_eq_ok B d (by omega) (by omega)]
        simp only [exceptIsOk]
        constructor
        · intro hfalse
          exact absurd hfalse (by simp)
        · intro hor
          omega
  exact ⟨hcreate, by rw [find_all_isOk_eq]; exact hcreate,
    by rw [find_clusters_isOk_eq, find_all_isOk_eq]; exact hcreate⟩

/-- **C5, counterexample to the claimed equivalence**: at `B = 1`,
`d = 0` the claimed failure condition `d = 0 ∨ B ≤ d ∨ B > 64` holds
(its first disjunct), yet `Permutation.create 1 0` succeeds. -/
theorem claim_C5_counterexample :
    ((0 : Nat) = 0 ∨ (1 : Nat) ≤ 0 ∨ 64 < (1 : Nat)) ∧
    exceptIsOk (Permutation.create 1 0) = true :=
  ⟨Or.inl rfl, rfl⟩

/-- **C10** (apply is a Hamming-distance-preserving XOR-homomorphism):
for every `(B, d)` with `0 < d < B ≤ 64`, every permutation `p` in the
family produced by `Permutation.create B d`, and all 64-bit hashes `x`
and `y`, `p.apply (x ^^^ y) = p.apply x ^^^ p.apply y` and
`num_differing_bits (p.apply x) (p.apply y) = num_differing_bits x y`. -/
theorem claim_C10 (B d : Nat) (_hd : 0 < d) (hdB : d < B) (hB : B ≤ 64)
    (ps : List Permutation) (hps : Permutation.create B d = .ok ps)
    (p : Permutation) (hp : p ∈ ps) (x y : Nat) (hx : x < 2 ^ 64) (hy : y < 2 ^ 64) :
    p.apply (x ^^^ y) = p.apply x ^^^ p.apply y ∧
    num_differing_bits (p.apply x) (p.apply y) = num_differing_bits x y := by
  obtain ⟨sc, hsub, hlen, rfl⟩ := create_mem_decomp B d hdB hB p ps hps hp
  have hpart := choice_specs_partition B (by omega) hB sc hsub
  exact ⟨apply_build_xor d _ hpart.chainOK x y,
    num_differing_bits_apply_build d _ hpart x y hx hy⟩

theorem claim_C10_witness :
    ∃ ps, Permutation.create 2 1 = Except.ok ps ∧ ∀ p ∈ ps,
      p.apply (3 ^^^ 5) = p.apply 3 ^^^ p.apply 5 ∧
      num_differing_bits (p.apply 3) (p.apply 5) = num_differing_bits 3 5 :=
  ⟨_, rfl, fun p hp => claim_C10 2 1 (by decide) (by decide) (by decide)
    _ rfl p hp 3 5 (by norm_num) (by norm_num)⟩

theorem claim_C8_witness :
    (((compute [1, 1, 2]).testBit 0 = true ↔ 0 < bitCounter [1, 1, 2] 0) ∧
    (0 < bitCounter [1, 1, 2] 0 ↔
      ([1, 1, 2] : List Nat).length < 2 * ([1, 1, 2] : List Nat).countP (fun h => h.testBit 0)) ∧
    (bitCounter [1, 1, 2] 0 = 0 → (compute [1, 1, 2]).testBit 0 = false) ∧
    compute [] = 0) :=
  claim_C8 [1, 1, 2] 0 (by decide)

end Simhash

